import Mathlib

/-!
Verification of the EB-Smalltalk runtime (smalltalk.c / opcode.h).

The definitions below are shallow embeddings of the C functions of the
repository.  Pointer-keyed maps become binary trees over `Nat` keys (a
symbol's identity is its address, modelled as a `Nat`); the string-keyed
symbol registry uses `String` keys; heaps become association lists from
`Nat` addresses to object records; the dispatcher and the garbage
collector, whose C loops may diverge or recurse unboundedly, take an
explicit fuel argument, `none` standing for a run that did not complete
(divergence or undefined behaviour such as dereferencing a dangling
pointer).
-/

/-- Comparison outcome, mirroring `enum ST_Cmp` of smalltalk.c. -/
inductive ST_Cmp where
  | eq
  | less
  | greater
deriving DecidableEq, Repr

/-- Intrusive-BST node (`struct ST_BST_Node` plus its payload).  The C code
stores the payload around the node header; here a node carries its key and
value directly. -/
inductive BST (κ β : Type) where
  | leaf
  | node (left : BST κ β) (key : κ) (value : β) (right : BST κ β)
deriving DecidableEq, Repr

namespace BST

variable {κ β : Type}

/-- ST_BST_find: walk the tree following the comparator; `comparator(current,
key) = Greater` descends left, `Less` descends right, `Eq` returns the
current node. -/
def find (kcmp : κ → κ → ST_Cmp) : BST κ β → κ → Option (κ × β)
  | .leaf, _ => none
  | .node l key v r, k =>
    match kcmp key k with
    | ST_Cmp.eq => some (key, v)
    | ST_Cmp.greater => find kcmp l k
    | ST_Cmp.less => find kcmp r k

/-- ST_BST_insert: descend like `find`; a `Eq` hit means the key exists and
the insert fails (`none`, the C function returns false and the caller frees
the new entry); otherwise the new node is attached at the reached leaf. -/
def insert (kcmp : κ → κ → ST_Cmp) : BST κ β → κ → β → Option (BST κ β)
  | .leaf, k, v => some (.node .leaf k v .leaf)
  | .node l key val r, k, v =>
    match kcmp key k with
    | ST_Cmp.eq => none
    | ST_Cmp.greater => (insert kcmp l k v).map (fun t => .node t key val r)
    | ST_Cmp.less => (insert kcmp r k v).map (fun t => .node l key val t)

/-- In-place update of the value stored under a key, modelling the C idiom
`found = ST_BST_find(...); found->value = object;` (used by ST_setGlobal on
an existing binding).  Fails (`none`) when the key is absent, matching the
C path that only assigns through a non-null `found`. -/
def writeValue (kcmp : κ → κ → ST_Cmp) : BST κ β → κ → β → Option (BST κ β)
  | .leaf, _, _ => none
  | .node l key val r, k, v =>
    match kcmp key k with
    | ST_Cmp.eq => some (.node l key v r)
    | ST_Cmp.greater => (writeValue kcmp l k v).map (fun t => .node t key val r)
    | ST_Cmp.less => (writeValue kcmp r k v).map (fun t => .node l key val t)

/-- Unlink the rightmost (predecessor-side maximum) node of the tree
`node l key v r`, returning the remaining tree and the removed pair.  This
is the `while (max->right) ...` walk inside the both-children case of
ST_BST_remove. -/
def removeMaxGo (l : BST κ β) (key : κ) (v : β) : BST κ β → BST κ β × κ × β
  | .leaf => (l, key, v)
  | .node rl rk rv rr =>
    (.node l key v (removeMaxGo rl rk rv rr).1, (removeMaxGo rl rk rv rr).2)

/-- ST_BST_remove: locate the key via the comparator, then splice the node
out.  The four child-count cases of the C function collapse to: no left
child (result is the right child, which is itself `leaf` when both are
absent), no right child (result is the left child), and both children
(the predecessor, i.e. the maximum of the left subtree, is unlinked and
takes the removed node's position).  Returns the removed pair together
with the new tree, or `none` when the key is absent. -/
def remove (kcmp : κ → κ → ST_Cmp) : BST κ β → κ → Option (BST κ β × κ × β)
  | .leaf, _ => none
  | .node l key v r, k =>
    match kcmp key k with
    | ST_Cmp.eq =>
      match l, r with
      | .leaf, _ => some (r, key, v)
      | _, .leaf => some (l, key, v)
      | .node ll lk lv lr, _ =>
        let p := removeMaxGo ll lk lv lr
        some (.node p.1 p.2.1 p.2.2 r, key, v)
    | ST_Cmp.greater => (remove kcmp l k).map (fun q => (.node q.1 key v r, q.2))
    | ST_Cmp.less => (remove kcmp r k).map (fun q => (.node l key v q.1, q.2))

/-- In-order listing of the tree's entries; this is the visit order of
ST_BST_traverse (left subtree, node, right subtree). -/
def entries : BST κ β → List (κ × β)
  | .leaf => []
  | .node l k v r => entries l ++ (k, v) :: entries r

/-- Every key of the tree satisfies `p`. -/
def All (p : κ → Prop) : BST κ β → Prop
  | .leaf => True
  | .node l k _ r => All p l ∧ p k ∧ All p r

/-- Search-tree invariant relative to the comparator: at every node, the
comparator answers `greater` against each key of the left subtree and
`less` against each key of the right subtree — exactly the shape that the
descend directions of `find` / `insert` / `remove` rely on. -/
def SortedBy (kcmp : κ → κ → ST_Cmp) : BST κ β → Prop
  | .leaf => True
  | .node l k _ r =>
    All (fun q => kcmp k q = ST_Cmp.greater) l ∧
    All (fun q => kcmp k q = ST_Cmp.less) r ∧
    SortedBy kcmp l ∧ SortedBy kcmp r

end BST

/-- Well-behavedness of a comparator: `eq` exactly on equal keys, `greater`
is the flip of `less`, and `greater` is transitive.  Both comparators of
smalltalk.c (symbol identity and strcmp) satisfy these. -/
structure CmpLaws {κ : Type} (kcmp : κ → κ → ST_Cmp) : Prop where
  eq_iff : ∀ a b, kcmp a b = ST_Cmp.eq ↔ a = b
  gr_iff : ∀ a b, kcmp a b = ST_Cmp.greater ↔ kcmp b a = ST_Cmp.less
  trans_gr : ∀ a b c, kcmp a b = ST_Cmp.greater → kcmp b c = ST_Cmp.greater →
    kcmp a c = ST_Cmp.greater

/-- ST_SymbolMap_comparator: symbols compare by identity (their address,
here a `Nat`); note the C function answers `Less` when the node's symbol is
the *larger* one, so the tree is ordered with larger symbols to the left. -/
def symCmp (a b : Nat) : ST_Cmp :=
  if b < a then ST_Cmp.less else if a < b then ST_Cmp.greater else ST_Cmp.eq

/-- ST_StringMap_comparator: `ST_clamp(ST_strcmp(node.key, key), Less,
Greater)` — lexicographic string comparison. -/
def strCmp (a b : String) : ST_Cmp :=
  if a < b then ST_Cmp.less else if b < a then ST_Cmp.greater else ST_Cmp.eq

theorem symCmp_eq_iff (a b : Nat) : symCmp a b = ST_Cmp.eq ↔ a = b := by
  unfold symCmp
  rcases Nat.lt_trichotomy a b with h | h | h
  · rw [if_neg (by omega), if_pos h]
    simp
    omega
  · subst h
    rw [if_neg (by omega), if_neg (by omega)]
    simp
  · rw [if_pos h]
    simp
    omega

theorem symCmp_gr_iff (a b : Nat) : symCmp a b = ST_Cmp.greater ↔ a < b := by
  unfold symCmp
  rcases Nat.lt_trichotomy a b with h | h | h
  · rw [if_neg (by omega), if_pos h]
    simp [h]
  · subst h
    rw [if_neg (by omega), if_neg (by omega)]
    simp
  · rw [if_pos h]
    simp
    omega

theorem symCmp_less_iff (a b : Nat) : symCmp a b = ST_Cmp.less ↔ b < a := by
  unfold symCmp
  rcases Nat.lt_trichotomy a b with h | h | h
  · rw [if_neg (by omega), if_pos h]
    simp
    omega
  · subst h
    rw [if_neg (by omega), if_neg (by omega)]
    simp
  · rw [if_pos h]
    simp [h]

theorem symCmp_laws : CmpLaws symCmp := by
  refine ⟨symCmp_eq_iff, ?_, ?_⟩
  · intro a b
    rw [symCmp_gr_iff, symCmp_less_iff]
  · intro a b c hab hbc
    rw [symCmp_gr_iff] at *
    omega

theorem strCmp_less_iff (a b : String) : strCmp a b = ST_Cmp.less ↔ a < b := by
  unfold strCmp
  rcases lt_trichotomy a b with h | h | h
  · rw [if_pos h]
    simp [h]
  · subst h
    rw [if_neg (lt_irrefl a), if_neg (lt_irrefl a)]
    simp [lt_irrefl]
  · rw [if_neg (lt_asymm h), if_pos h]
    simp [lt_asymm h]

theorem strCmp_gr_iff (a b : String) : strCmp a b = ST_Cmp.greater ↔ b < a := by
  unfold strCmp
  rcases lt_trichotomy a b with h | h | h
  · rw [if_pos h]
    simp [lt_asymm h]
  · subst h
    rw [if_neg (lt_irrefl a), if_neg (lt_irrefl a)]
    simp [lt_irrefl]
  · rw [if_neg (lt_asymm h), if_pos h]
    simp [h]

theorem strCmp_eq_iff (a b : String) : strCmp a b = ST_Cmp.eq ↔ a = b := by
  unfold strCmp
  rcases lt_trichotomy a b with h | h | h
  · rw [if_pos h]
    simp
    intro hq
    subst hq
    exact absurd h (lt_irrefl a)
  · subst h
    rw [if_neg (lt_irrefl a), if_neg (lt_irrefl a)]
    simp
  · rw [if_neg (lt_asymm h), if_pos h]
    simp
    intro hq
    subst hq
    exact absurd h (lt_irrefl a)

theorem strCmp_laws : CmpLaws strCmp := by
  refine ⟨strCmp_eq_iff, ?_, ?_⟩
  · intro a b
    rw [strCmp_gr_iff, strCmp_less_iff]
  · intro a b c hab hbc
    rw [strCmp_gr_iff] at *
    exact lt_trans hbc hab

namespace BST

variable {κ β : Type} {kcmp : κ → κ → ST_Cmp}

theorem All_iff_entries (p : κ → Prop) (t : BST κ β) :
    All p t ↔ ∀ q ∈ entries t, p q.1 := by
  induction t with
  | leaf => simp [All, entries]
  | node l k v r ihl ihr =>
    simp only [All, entries, ihl, ihr, List.mem_append, List.mem_cons]
    constructor
    · rintro ⟨h1, h2, h3⟩ q (hq | hq | hq)
      · exact h1 q hq
      · subst hq
        exact h2
      · exact h3 q hq
    · intro h
      refine ⟨fun q hq => h q (Or.inl hq), h (k, v) (Or.inr (Or.inl rfl)),
        fun q hq => h q (Or.inr (Or.inr hq))⟩

theorem find_mem (L : CmpLaws kcmp) {t : BST κ β} {k : κ} {p : κ × β}
    (h : find kcmp t k = some p) : p ∈ entries t ∧ p.1 = k := by
  induction t with
  | leaf => simp [find] at h
  | node l key v r ihl ihr =>
    rcases hc : kcmp key k with _ | _ | _ <;>
      simp only [find, hc] at h
    · cases h
      exact ⟨by simp [entries], (L.eq_iff key k).mp hc⟩
    · rcases ihr h with ⟨hm, hk⟩
      exact ⟨by simp [entries, hm], hk⟩
    · rcases ihl h with ⟨hm, hk⟩
      exact ⟨by simp [entries, hm], hk⟩

theorem mem_find (L : CmpLaws kcmp) {t : BST κ β} (hs : SortedBy kcmp t)
    {k : κ} {v : β} (hm : (k, v) ∈ entries t) : find kcmp t k = some (k, v) := by
  induction t with
  | leaf => simp [entries] at hm
  | node l key val r ihl ihr =>
    rcases hs with ⟨hal, har, hsl, hsr⟩
    simp only [entries, List.mem_append, List.mem_cons] at hm
    rcases hm with hm | hm | hm
    · have hgr : kcmp key k = ST_Cmp.greater :=
        (All_iff_entries _ l).mp hal (k, v) hm
      simp only [find, hgr]
      exact ihl hsl hm
    · cases hm
      have heq : kcmp k k = ST_Cmp.eq := (L.eq_iff k k).mpr rfl
      simp only [find, heq]
    · have hls : kcmp key k = ST_Cmp.less :=
        (All_iff_entries _ r).mp har (k, v) hm
      simp only [find, hls]
      exact ihr hsr hm

theorem find_none_iff (L : CmpLaws kcmp) {t : BST κ β} (hs : SortedBy kcmp t)
    (k : κ) : find kcmp t k = none ↔ ∀ v, (k, v) ∉ entries t := by
  constructor
  · intro h v hv
    rw [mem_find L hs hv] at h
    cases h
  · intro h
    rcases hf : find kcmp t k with _ | p
    · rfl
    · exfalso
      rcases find_mem L hf with ⟨hm, hk⟩
      apply h p.2
      rw [← hk]
      simpa using hm

theorem key_unique (L : CmpLaws kcmp) {t : BST κ β} (hs : SortedBy kcmp t)
    {k : κ} {v1 v2 : β} (h1 : (k, v1) ∈ entries t) (h2 : (k, v2) ∈ entries t) :
    v1 = v2 := by
  have e1 := mem_find L hs h1
  have e2 := mem_find L hs h2
  rw [e1] at e2
  cases e2
  rfl

theorem insert_entries {t t2 : BST κ β} {k : κ} {v : β}
    (h : insert kcmp t k v = some t2) :
    ∀ q, q ∈ entries t2 ↔ q = (k, v) ∨ q ∈ entries t := by
  induction t generalizing t2 with
  | leaf =>
    simp only [insert] at h
    cases h
    simp [entries]
  | node l key val r ihl ihr =>
    rcases hc : kcmp key k with _ | _ | _
    · simp only [insert, hc] at h
      exact Option.noConfusion h
    · simp only [insert, hc, Option.map_eq_some'] at h
      rcases h with ⟨r2, hr2, rfl⟩
      intro q
      have hmem := ihr hr2 q
      simp only [entries, List.mem_append, List.mem_cons, hmem]
      tauto
    · simp only [insert, hc, Option.map_eq_some'] at h
      rcases h with ⟨l2, hl2, rfl⟩
      intro q
      have hmem := ihl hl2 q
      simp only [entries, List.mem_append, List.mem_cons, hmem]
      tauto

theorem insert_none_iff (L : CmpLaws kcmp) {t : BST κ β} (hs : SortedBy kcmp t)
    (k : κ) (v : β) :
    insert kcmp t k v = none ↔ ∃ w, (k, w) ∈ entries t := by
  induction t with
  | leaf => simp [insert, entries]
  | node l key val r ihl ihr =>
    rcases hs with ⟨hal, har, hsl, hsr⟩
    rcases hc : kcmp key k with _ | _ | _
    all_goals simp only [insert, hc, Option.map_eq_none']
    · have hk : key = k := (L.eq_iff key k).mp hc
      subst hk
      simp only [iff_true_intro rfl, true_iff]
      exact ⟨val, by simp [entries]⟩
    · rw [ihr hsr]
      constructor
      · rintro ⟨w, hw⟩
        exact ⟨w, by simp [entries, hw]⟩
      · rintro ⟨w, hw⟩
        simp only [entries, List.mem_append, List.mem_cons] at hw
        rcases hw with hw | hw | hw
        · have := (All_iff_entries _ l).mp hal (k, w) hw
          rw [this] at hc
          cases hc
        · cases hw
          rw [(L.eq_iff k k).mpr rfl] at hc
          cases hc
        · exact ⟨w, hw⟩
    · rw [ihl hsl]
      constructor
      · rintro ⟨w, hw⟩
        exact ⟨w, by simp [entries, hw]⟩
      · rintro ⟨w, hw⟩
        simp only [entries, List.mem_append, List.mem_cons] at hw
        rcases hw with hw | hw | hw
        · exact ⟨w, hw⟩
        · cases hw
          rw [(L.eq_iff k k).mpr rfl] at hc
          cases hc
        · have := (All_iff_entries _ r).mp har (k, w) hw
          rw [this] at hc
          cases hc

theorem insert_All {p : κ → Prop} {t t2 : BST κ β} {k : κ} {v : β}
    (hAll : All p t) (hk : p k) (h : insert kcmp t k v = some t2) : All p t2 := by
  rw [All_iff_entries] at *
  intro q hq
  rcases (insert_entries h q).mp hq with hq | hq
  · subst hq
    exact hk
  · exact hAll q hq

theorem insert_sorted (L : CmpLaws kcmp) {t t2 : BST κ β} {k : κ} {v : β}
    (hs : SortedBy kcmp t) (h : insert kcmp t k v = some t2) :
    SortedBy kcmp t2 := by
  induction t generalizing t2 with
  | leaf =>
    simp only [insert] at h
    cases h
    simp [SortedBy, All]
  | node l key val r ihl ihr =>
    rcases hs with ⟨hal, har, hsl, hsr⟩
    rcases hc : kcmp key k with _ | _ | _
    · simp only [insert, hc] at h
      exact Option.noConfusion h
    · simp only [insert, hc, Option.map_eq_some'] at h
      rcases h with ⟨r2, hr2, rfl⟩
      exact ⟨hal, insert_All har hc hr2, hsl, ihr hsr hr2⟩
    · simp only [insert, hc, Option.map_eq_some'] at h
      rcases h with ⟨l2, hl2, rfl⟩
      exact ⟨insert_All hal hc hl2, har, ihl hsl hl2, hsr⟩

theorem removeMaxGo_entries (r : BST κ β) :
    ∀ (l : BST κ β) (key : κ) (v : β),
      entries (removeMaxGo l key v r).1 ++ [(removeMaxGo l key v r).2] =
        entries (BST.node l key v r) := by
  induction r with
  | leaf => intro l key v; simp [removeMaxGo, entries]
  | node rl rk rv rr ihl ihr =>
    intro l key v
    simp only [removeMaxGo, entries]
    rw [List.append_assoc, List.cons_append, ihr rl rk rv]
    simp [entries]

theorem mem_entries_node {l r : BST κ β} {k : κ} {v : β} {q : κ × β} :
    q ∈ entries (BST.node l k v r) ↔ q ∈ entries l ∨ q = (k, v) ∨ q ∈ entries r := by
  simp [entries]

theorem remove_none_iff (L : CmpLaws kcmp) {t : BST κ β} (hs : SortedBy kcmp t)
    (k : κ) : remove kcmp t k = none ↔ ∀ v, (k, v) ∉ entries t := by
  induction t with
  | leaf => simp [remove, entries]
  | node l key val r ihl ihr =>
    rcases hs with ⟨hal, har, hsl, hsr⟩
    rcases hc : kcmp key k with _ | _ | _
    · have hk : k = key := ((L.eq_iff key k).mp hc).symm
      subst hk
      constructor
      · intro h
        exfalso
        simp only [remove, hc] at h
        rcases l with _ | ⟨ll, lk, lv, lr⟩ <;> rcases r with _ | ⟨rl, rk, rv, rr⟩ <;>
          simp at h
      · intro h
        exact absurd (by simp [entries] : (k, val) ∈ entries (BST.node l k val r))
          (h val)
    · simp only [remove, hc, Option.map_eq_none']
      rw [ihr hsr]
      constructor
      · intro h v hv
        simp only [entries, List.mem_append, List.mem_cons] at hv
        rcases hv with hv | hv | hv
        · have hx := (All_iff_entries _ l).mp hal (k, v) hv
          rw [hx] at hc
          exact ST_Cmp.noConfusion hc
        · cases hv
          rw [(L.eq_iff k k).mpr rfl] at hc
          exact ST_Cmp.noConfusion hc
        · exact h v hv
      · intro h v hv
        exact h v (by simp [entries, hv])
    · simp only [remove, hc, Option.map_eq_none']
      rw [ihl hsl]
      constructor
      · intro h v hv
        simp only [entries, List.mem_append, List.mem_cons] at hv
        rcases hv with hv | hv | hv
        · exact h v hv
        · cases hv
          rw [(L.eq_iff k k).mpr rfl] at hc
          exact ST_Cmp.noConfusion hc
        · have hx := (All_iff_entries _ r).mp har (k, v) hv
          rw [hx] at hc
          exact ST_Cmp.noConfusion hc
      · intro h v hv
        exact h v (by simp [entries, hv])

theorem removeMaxGo_sorted (L : CmpLaws kcmp) (r : BST κ β) :
    ∀ (l : BST κ β) (key : κ) (v : β),
      SortedBy kcmp (BST.node l key v r) →
      SortedBy kcmp (removeMaxGo l key v r).1 ∧
      All (fun q => kcmp (removeMaxGo l key v r).2.1 q = ST_Cmp.greater)
        (removeMaxGo l key v r).1 := by
  induction r with
  | leaf =>
    intro l key v hs
    rcases hs with ⟨hal, _, hsl, _⟩
    exact ⟨hsl, hal⟩
  | node rl rk rv rr ihl ihr =>
    intro l key v hs
    rcases hs with ⟨hal, har, hsl, hsr⟩
    have hsub := ihr rl rk rv hsr
    have hmx : (removeMaxGo rl rk rv rr).2 ∈ entries (BST.node rl rk rv rr) := by
      rw [← removeMaxGo_entries rr rl rk rv]
      simp
    have hkeymax : kcmp key (removeMaxGo rl rk rv rr).2.1 = ST_Cmp.less :=
      (All_iff_entries _ _).mp har _ hmx
    have hmaxkey : kcmp (removeMaxGo rl rk rv rr).2.1 key = ST_Cmp.greater :=
      (L.gr_iff _ _).mpr hkeymax
    simp only [removeMaxGo]
    constructor
    · refine ⟨hal, ?_, hsl, hsub.1⟩
      rw [All_iff_entries]
      intro q hq
      have hq2 : q ∈ entries (BST.node rl rk rv rr) := by
        rw [← removeMaxGo_entries rr rl rk rv]
        exact List.mem_append_left _ hq
      exact (All_iff_entries _ _).mp har q hq2
    · refine ⟨?_, hmaxkey, hsub.2⟩
      rw [All_iff_entries]
      intro q hq
      exact L.trans_gr _ _ _ hmaxkey ((All_iff_entries _ _).mp hal q hq)

theorem removeMaxGo_mem (r : BST κ β) (l : BST κ β) (key : κ) (v : β) :
    (removeMaxGo l key v r).2 ∈ entries (BST.node l key v r) := by
  rw [← removeMaxGo_entries r l key v]
  simp

theorem remove_some (L : CmpLaws kcmp) {t t2 : BST κ β} {k rk : κ} {rv : β}
    (hs : SortedBy kcmp t) (h : remove kcmp t k = some (t2, rk, rv)) :
    rk = k ∧ (k, rv) ∈ entries t ∧ SortedBy kcmp t2 ∧
      (∀ q, q ∈ entries t2 ↔ q ∈ entries t ∧ q.1 ≠ k) := by
  induction t generalizing t2 with
  | leaf => simp [remove] at h
  | node l key val r ihl ihr =>
    rcases hs with ⟨hal, har, hsl, hsr⟩
    rcases hc : kcmp key k with _ | _ | _
    · have hk : k = key := ((L.eq_iff key k).mp hc).symm
      subst hk
      have hlne : ∀ q : κ × β, q ∈ entries l → q.1 ≠ k := by
        intro q hq hqk
        have hx := (All_iff_entries _ l).mp hal q hq
        rw [hqk, (L.eq_iff k k).mpr rfl] at hx
        exact ST_Cmp.noConfusion hx
      have hrne : ∀ q : κ × β, q ∈ entries r → q.1 ≠ k := by
        intro q hq hqk
        have hx := (All_iff_entries _ r).mp har q hq
        rw [hqk, (L.eq_iff k k).mpr rfl] at hx
        exact ST_Cmp.noConfusion hx
      rcases hls : l with _ | ⟨ll, lk, lv, lr⟩
      · subst hls
        simp only [remove, hc, Option.some_inj, Prod.mk.injEq] at h
        rcases h with ⟨h1, h2, h3⟩
        subst h1
        subst h2
        subst h3
        refine ⟨rfl, by simp [entries], hsr, ?_⟩
        intro q
        constructor
        · intro hq
          exact ⟨mem_entries_node.mpr (Or.inr (Or.inr hq)), hrne q hq⟩
        · rintro ⟨hq, hne⟩
          rcases mem_entries_node.mp hq with hq | hq | hq
          · simp [entries] at hq
          · exact absurd (by rw [hq]) hne
          · exact hq
      · rcases hrs : r with _ | ⟨rl2, rk2, rv2, rr2⟩
        · subst hls
          subst hrs
          simp only [remove, hc, Option.some_inj, Prod.mk.injEq] at h
          rcases h with ⟨h1, h2, h3⟩
          subst h1
          subst h2
          subst h3
          refine ⟨rfl, by simp [entries], hsl, ?_⟩
          intro q
          constructor
          · intro hq
            exact ⟨mem_entries_node.mpr (Or.inl hq), hlne q hq⟩
          · rintro ⟨hq, hne⟩
            rcases mem_entries_node.mp hq with hq | hq | hq
            · exact hq
            · exact absurd (by rw [hq]) hne
            · simp [entries] at hq
        · subst hls
          subst hrs
          simp only [remove, hc, Option.some_inj, Prod.mk.injEq] at h
          rcases h with ⟨h1, h2, h3⟩
          subst h2
          subst h3
          have hms := removeMaxGo_sorted L lr ll lk lv hsl
          have hent := removeMaxGo_entries lr ll lk lv
          have hmem := removeMaxGo_mem lr ll lk lv
          have hmaxl : kcmp k (removeMaxGo ll lk lv lr).2.1 = ST_Cmp.greater :=
            (All_iff_entries _ _).mp hal _ hmem
          subst h1
          have hql : ∀ q : κ × β, q ∈ entries (BST.node ll lk lv lr) ↔
              q ∈ entries (removeMaxGo ll lk lv lr).1 ∨
                q = (removeMaxGo ll lk lv lr).2 := by
            intro q
            rw [← hent]
            simp
          refine ⟨rfl, by simp [entries], ?_, ?_⟩
          · refine ⟨hms.2, ?_, hms.1, hsr⟩
            rw [All_iff_entries]
            intro q hq
            have h5 : kcmp q.1 k = ST_Cmp.greater := by
              rw [L.gr_iff]
              exact (All_iff_entries _ _).mp har q hq
            exact (L.gr_iff q.1 _).mp (L.trans_gr _ _ _ h5 hmaxl)
          · intro q
            constructor
            · intro hq
              rcases mem_entries_node.mp hq with hq | hq | hq
              · have h6 := (hql q).mpr (Or.inl hq)
                exact ⟨mem_entries_node.mpr (Or.inl h6), hlne q h6⟩
              · have h6 := (hql q).mpr (Or.inr hq)
                exact ⟨mem_entries_node.mpr (Or.inl h6), hlne q h6⟩
              · exact ⟨mem_entries_node.mpr (Or.inr (Or.inr hq)), hrne q hq⟩
            · rintro ⟨hq, hne⟩
              rcases mem_entries_node.mp hq with hq | hq | hq
              · rcases (hql q).mp hq with hq2 | hq2
                · exact mem_entries_node.mpr (Or.inl hq2)
                · exact mem_entries_node.mpr (Or.inr (Or.inl hq2))
              · exact absurd (by rw [hq]) hne
              · exact mem_entries_node.mpr (Or.inr (Or.inr hq))
    · simp only [remove, hc, Option.map_eq_some'] at h
      rcases h with ⟨⟨r2, rk2, rv2⟩, hr2, heq⟩
      simp only [Prod.mk.injEq] at heq
      rcases heq with ⟨h1, h2, h3⟩
      subst h1
      subst h2
      subst h3
      rcases ihr hsr hr2 with ⟨hk, hmem, hsr2, hiff⟩
      subst hk
      have hkeyne : key ≠ rk2 := by
        intro hx
        rw [hx, (L.eq_iff rk2 rk2).mpr rfl] at hc
        exact ST_Cmp.noConfusion hc
      refine ⟨rfl, by simp [entries, hmem], ?_, ?_⟩
      · refine ⟨hal, ?_, hsl, hsr2⟩
        rw [All_iff_entries]
        intro q hq
        exact (All_iff_entries _ r).mp har q ((hiff q).mp hq).1
      · intro q
        simp only [entries, List.mem_append, List.mem_cons, hiff q]
        constructor
        · rintro (hq | hq | hq)
          · refine ⟨Or.inl hq, ?_⟩
            intro hqk
            have hx := (All_iff_entries _ l).mp hal q hq
            rw [hqk] at hx
            rw [hx] at hc
            exact ST_Cmp.noConfusion hc
          · refine ⟨Or.inr (Or.inl hq), ?_⟩
            rw [hq]
            exact hkeyne
          · exact ⟨Or.inr (Or.inr hq.1), hq.2⟩
        · rintro ⟨hq | hq | hq, hne⟩
          · exact Or.inl hq
          · exact Or.inr (Or.inl hq)
          · exact Or.inr (Or.inr ⟨hq, hne⟩)
    · simp only [remove, hc, Option.map_eq_some'] at h
      rcases h with ⟨⟨l2, rk2, rv2⟩, hl2, heq⟩
      simp only [Prod.mk.injEq] at heq
      rcases heq with ⟨h1, h2, h3⟩
      subst h1
      subst h2
      subst h3
      rcases ihl hsl hl2 with ⟨hk, hmem, hsl2, hiff⟩
      subst hk
      have hkeyne : key ≠ rk2 := by
        intro hx
        rw [hx, (L.eq_iff rk2 rk2).mpr rfl] at hc
        exact ST_Cmp.noConfusion hc
      refine ⟨rfl, by simp [entries, hmem], ?_, ?_⟩
      · refine ⟨?_, har, hsl2, hsr⟩
        rw [All_iff_entries]
        intro q hq
        exact (All_iff_entries _ l).mp hal q ((hiff q).mp hq).1
      · intro q
        simp only [entries, List.mem_append, List.mem_cons, hiff q]
        constructor
        · rintro (hq | hq | hq)
          · exact ⟨Or.inl hq.1, hq.2⟩
          · refine ⟨Or.inr (Or.inl hq), ?_⟩
            rw [hq]
            exact hkeyne
          · refine ⟨Or.inr (Or.inr hq), ?_⟩
            intro hqk
            have hx := (All_iff_entries _ r).mp har q hq
            rw [hqk] at hx
            rw [hx] at hc
            exact ST_Cmp.noConfusion hc
        · rintro ⟨hq | hq | hq, hne⟩
          · exact Or.inl ⟨hq, hne⟩
          · exact Or.inr (Or.inl hq)
          · exact Or.inr (Or.inr hq)


theorem writeValue_none_iff {t : BST κ β} (k : κ) (v : β) :
    writeValue kcmp t k v = none ↔ find kcmp t k = none := by
  induction t with
  | leaf => simp [writeValue, find]
  | node l key val r ihl ihr =>
    rcases hc : kcmp key k with _ | _ | _
    · simp only [writeValue, find, hc]
      constructor
      · intro h2
        exact Option.noConfusion h2
      · intro h2
        exact Option.noConfusion h2
    · simp only [writeValue, find, hc, Option.map_eq_none']
      exact ihr
    · simp only [writeValue, find, hc, Option.map_eq_none']
      exact ihl

theorem writeValue_find (L : CmpLaws kcmp) {t t2 : BST κ β} {k : κ} {v : β}
    (h : writeValue kcmp t k v = some t2) : find kcmp t2 k = some (k, v) := by
  induction t generalizing t2 with
  | leaf => simp [writeValue] at h
  | node l key val r ihl ihr =>
    rcases hc : kcmp key k with _ | _ | _
    · simp only [writeValue, hc, Option.some_inj] at h
      subst h
      have hk : key = k := (L.eq_iff key k).mp hc
      subst hk
      simp only [find, hc]
    · simp only [writeValue, hc, Option.map_eq_some'] at h
      rcases h with ⟨r2, hr2, rfl⟩
      simp only [find, hc]
      exact ihr hr2
    · simp only [writeValue, hc, Option.map_eq_some'] at h
      rcases h with ⟨l2, hl2, rfl⟩
      simp only [find, hc]
      exact ihl hl2

theorem writeValue_keys {t t2 : BST κ β} {k : κ} {v : β}
    (h : writeValue kcmp t k v = some t2) :
    ∀ q, (∃ w, (q, w) ∈ entries t2) ↔ (∃ w, (q, w) ∈ entries t) := by
  induction t generalizing t2 with
  | leaf => simp [writeValue] at h
  | node l key val r ihl ihr =>
    rcases hc : kcmp key k with _ | _ | _
    · simp only [writeValue, hc, Option.some_inj] at h
      subst h
      intro q
      simp only [entries, List.mem_append, List.mem_cons, Prod.mk.injEq]
      constructor
      · rintro ⟨w, hw | ⟨hq, hv⟩ | hw⟩
        · exact ⟨w, Or.inl hw⟩
        · exact ⟨val, Or.inr (Or.inl ⟨hq, rfl⟩)⟩
        · exact ⟨w, Or.inr (Or.inr hw)⟩
      · rintro ⟨w, hw | ⟨hq, hv⟩ | hw⟩
        · exact ⟨w, Or.inl hw⟩
        · exact ⟨v, Or.inr (Or.inl ⟨hq, rfl⟩)⟩
        · exact ⟨w, Or.inr (Or.inr hw)⟩
    · simp only [writeValue, hc, Option.map_eq_some'] at h
      rcases h with ⟨r2, hr2, rfl⟩
      intro q
      simp only [entries, List.mem_append, List.mem_cons]
      constructor
      · rintro ⟨w, hw | hw | hw⟩
        · exact ⟨w, Or.inl hw⟩
        · exact ⟨w, Or.inr (Or.inl hw)⟩
        · rcases (ihr hr2 q).mp ⟨w, hw⟩ with ⟨w2, hw2⟩
          exact ⟨w2, Or.inr (Or.inr hw2)⟩
      · rintro ⟨w, hw | hw | hw⟩
        · exact ⟨w, Or.inl hw⟩
        · exact ⟨w, Or.inr (Or.inl hw)⟩
        · rcases (ihr hr2 q).mpr ⟨w, hw⟩ with ⟨w2, hw2⟩
          exact ⟨w2, Or.inr (Or.inr hw2)⟩
    · simp only [writeValue, hc, Option.map_eq_some'] at h
      rcases h with ⟨l2, hl2, rfl⟩
      intro q
      simp only [entries, List.mem_append, List.mem_cons]
      constructor
      · rintro ⟨w, hw | hw | hw⟩
        · rcases (ihl hl2 q).mp ⟨w, hw⟩ with ⟨w2, hw2⟩
          exact ⟨w2, Or.inl hw2⟩
        · exact ⟨w, Or.inr (Or.inl hw)⟩
        · exact ⟨w, Or.inr (Or.inr hw)⟩
      · rintro ⟨w, hw | hw | hw⟩
        · rcases (ihl hl2 q).mpr ⟨w, hw⟩ with ⟨w2, hw2⟩
          exact ⟨w2, Or.inl hw2⟩
        · exact ⟨w, Or.inr (Or.inl hw)⟩
        · exact ⟨w, Or.inr (Or.inr hw)⟩

theorem writeValue_All {p : κ → Prop} {t t2 : BST κ β} {k : κ} {v : β}
    (hAll : All p t) (h : writeValue kcmp t k v = some t2) : All p t2 := by
  rw [All_iff_entries] at *
  intro q hq
  rcases (writeValue_keys h q.1).mp ⟨q.2, hq⟩ with ⟨w, hw⟩
  exact hAll (q.1, w) hw

theorem writeValue_sorted {t t2 : BST κ β} {k : κ} {v : β}
    (hs : SortedBy kcmp t) (h : writeValue kcmp t k v = some t2) :
    SortedBy kcmp t2 := by
  induction t generalizing t2 with
  | leaf => simp [writeValue] at h
  | node l key val r ihl ihr =>
    rcases hs with ⟨hal, har, hsl, hsr⟩
    rcases hc : kcmp key k with _ | _ | _
    · simp only [writeValue, hc, Option.some_inj] at h
      subst h
      exact ⟨hal, har, hsl, hsr⟩
    · simp only [writeValue, hc, Option.map_eq_some'] at h
      rcases h with ⟨r2, hr2, rfl⟩
      exact ⟨hal, writeValue_All har hr2, hsl, ihr hsr hr2⟩
    · simp only [writeValue, hc, Option.map_eq_some'] at h
      rcases h with ⟨l2, hl2, rfl⟩
      exact ⟨writeValue_All hal hl2, har, ihl hsl hl2, hsr⟩

end BST

/-!
Global scope (ST_getGlobal / ST_setGlobal of src/src/smalltalk.c).
Objects and symbols are addresses, modelled as `Nat`.
-/

/-- The global scope: an intrusive BST keyed by symbol identity, each entry
holding the bound object (`struct ST_GlobalVarMap_Entry`). -/
abbrev GlobalScope := BST Nat Nat

/-- ST_getGlobal: find the symbol in the global scope; a miss returns nil.
On a hit the C function also splays the tree, a rebalancing that changes
neither the key set nor the value returned (which is read from the node
found before the splay), so the state effect is omitted here. -/
def ST_getGlobal (nilv : Nat) (g : GlobalScope) (symbol : Nat) : Nat :=
  match BST.find symCmp g symbol with
  | some p => p.2
  | none => nilv

/-- ST_setGlobal: storing nil removes the binding and hands the removed
node to ST_Pool_free — when nothing was removed that frees a null pointer,
undefined behaviour, modelled as `none`.  Otherwise an existing binding's
value is overwritten in place; an absent one is inserted (a duplicate
insert failure frees the fresh node and leaves the map unchanged, which
cannot occur after the failed find). -/
def ST_setGlobal (nilv : Nat) (g : GlobalScope) (symbol obj : Nat) :
    Option GlobalScope :=
  if obj = nilv then
    match BST.remove symCmp g symbol with
    | some q => some q.1
    | none => none
  else
    match BST.writeValue symCmp g symbol obj with
    | some g2 => some g2
    | none =>
      match BST.insert symCmp g symbol obj with
      | some g2 => some g2
      | none => some g

/-- The claimed global-scope round trip at given inputs: set-then-get
returns the stored object; get on an unbound symbol returns nil; setting a
bound symbol to nil removes the binding, so a subsequent get returns
nil. -/
def GlobalsRoundTrip (nilv : Nat) (g : GlobalScope) (s x : Nat) : Prop :=
  (x ≠ nilv → ∀ g2, ST_setGlobal nilv g s x = some g2 →
    ST_getGlobal nilv g2 s = x) ∧
  ((∀ v, (s, v) ∉ BST.entries g) → ST_getGlobal nilv g s = nilv) ∧
  ((∃ v, (s, v) ∈ BST.entries g) → ∃ g2,
    ST_setGlobal nilv g s nilv = some g2 ∧ ST_getGlobal nilv g2 s = nilv)

/-- C6: for every symbol s and non-nil object x, after setGlobal(s, x) a
getGlobal(s) returns x; getGlobal on a symbol with no binding returns nil
(not an error); and setGlobal(s, nil) removes the entry for a bound s, so
a subsequent getGlobal(s) returns nil.  (The removal clause is stated for
a bound symbol: for an unbound one the C code passes the null node
returned by ST_BST_remove to ST_Pool_free, which is undefined
behaviour.) -/
theorem c6_globals_round_trip (nilv : Nat) (g : GlobalScope) (s x : Nat)
    (hs : BST.SortedBy symCmp g) : GlobalsRoundTrip nilv g s x := by
  refine ⟨?_, ?_, ?_⟩
  · intro hx g2 hset
    unfold ST_setGlobal at hset
    rw [if_neg hx] at hset
    rcases hw : BST.writeValue symCmp g s x with _ | g3
    · rw [hw] at hset
      rcases hi : BST.insert symCmp g s x with _ | g4
      · exfalso
        have hfind := (BST.writeValue_none_iff s x).mp hw
        rcases (BST.insert_none_iff symCmp_laws hs s x).mp hi with ⟨w, hwm⟩
        rw [BST.mem_find symCmp_laws hs hwm] at hfind
        exact Option.noConfusion hfind
      · rw [hi] at hset
        cases hset
        unfold ST_getGlobal
        have hm := (BST.insert_entries hi (s, x)).mpr (Or.inl rfl)
        rw [BST.mem_find symCmp_laws (BST.insert_sorted symCmp_laws hs hi) hm]
    · rw [hw] at hset
      cases hset
      unfold ST_getGlobal
      rw [BST.writeValue_find symCmp_laws hw]
  · intro habs
    unfold ST_getGlobal
    rw [(BST.find_none_iff symCmp_laws hs s).mpr habs]
  · rintro ⟨v, hv⟩
    have hrm : BST.remove symCmp g s ≠ none := by
      rw [Ne, BST.remove_none_iff symCmp_laws hs s]
      push_neg
      exact ⟨v, hv⟩
    rcases hq : BST.remove symCmp g s with _ | ⟨g2, rk, rv⟩
    · exact absurd hq hrm
    · rcases BST.remove_some symCmp_laws hs hq with ⟨hrk, hmem, hs2, hiff⟩
      refine ⟨g2, ?_, ?_⟩
      · unfold ST_setGlobal
        rw [if_pos rfl, hq]
      · unfold ST_getGlobal
        have hnone : BST.find symCmp g2 s = none := by
          rw [BST.find_none_iff symCmp_laws hs2 s]
          intro w hw2
          exact ((hiff (s, w)).mp hw2).2 rfl
        rw [hnone]

/-- A one-binding global scope used to instantiate the C6 theorem. -/
def globalsSample : GlobalScope := BST.node BST.leaf 1 5 BST.leaf

theorem c6_globals_round_trip_witness :
    BST.SortedBy symCmp globalsSample ∧ GlobalsRoundTrip 0 globalsSample 1 5 :=
  ⟨by simp [globalsSample, BST.SortedBy, BST.All],
   c6_globals_round_trip 0 globalsSample 1 5
     (by simp [globalsSample, BST.SortedBy, BST.All])⟩

/-!
Method dispatch: ST_Internal_Object_getMethod of src/src/smalltalk.c.
-/

/-- Identity of a primitive (host) function installed as a method.  `stNew`
and `stDNUDefault` are the two built-ins whose bodies matter for the
claims (ST_new and ST_doesNotUnderstand); every other host function is an
opaque `host` id whose semantics the interpreter receives as a
parameter. -/
inductive PrimFn where
  | stNew
  | stDNUDefault
  | host (id : Nat)
deriving DecidableEq, Repr

/-- A method-table entry's payload (`struct ST_Internal_Method`): either a
primitive (host function plus declared argc) or a compiled method (code
reference, bytecode offset, argc). -/
inductive STMethod where
  | primitive (fn : PrimFn) (argc : Nat)
  | compiled (codeId : Nat) (offset : Nat) (argc : Nat)
deriving DecidableEq, Repr

/-- A class (`struct ST_Class`): a method table keyed by selector identity
plus a nullable superclass pointer.  The spec invariant that super chains
terminate at the root (no cycles) makes the chain a finite inductive
value. -/
inductive STClass where
  | root (methodTree : BST Nat STMethod)
  | sub (methodTree : BST Nat STMethod) (super : STClass)
deriving DecidableEq, Repr

/-- The chain of method tables examined by lookup: the class's own table,
then each successive superclass's table. -/
def STClass.chain : STClass → List (BST Nat STMethod)
  | .root tbl => [tbl]
  | .sub tbl sup => tbl :: STClass.chain sup

/-- ST_Internal_Object_getMethod: starting from the receiver's class, look
the selector up in the current class's method table; on a miss advance to
the super; when the current class has no super the lookup fails. -/
def ST_Internal_Object_getMethod : STClass → Nat → Option STMethod
  | .root tbl, symbol =>
    match BST.find symCmp tbl symbol with
    | some p => some p.2
    | none => none
  | .sub tbl sup, symbol =>
    match BST.find symCmp tbl symbol with
    | some p => some p.2
    | none => ST_Internal_Object_getMethod sup symbol

/-- The claimed lookup property at a class and selector: a successful
lookup returns the entry of the first chain table containing the selector
(every earlier table lacks it), and the lookup fails exactly when no table
on the chain contains the selector. -/
def MethodLookupSpec (c : STClass) (sel : Nat) : Prop :=
  (∀ m, ST_Internal_Object_getMethod c sel = some m ↔
    ∃ i tbl, (STClass.chain c).get? i = some tbl ∧
      (sel, m) ∈ BST.entries tbl ∧
      ∀ j tbl2, j < i → (STClass.chain c).get? j = some tbl2 →
        ∀ v, (sel, v) ∉ BST.entries tbl2) ∧
  (ST_Internal_Object_getMethod c sel = none ↔
    ∀ tbl ∈ STClass.chain c, ∀ v, (sel, v) ∉ BST.entries tbl)

/-- C5: method lookup examines the receiver's class and then each
successive superclass, returning the first method-table entry keyed by the
selector (the method installed closest to the receiver's class), and fails
only when the chain is exhausted without a match. -/
theorem c5_method_lookup_first_match (c : STClass) (sel : Nat)
    (hs : ∀ tbl ∈ STClass.chain c, BST.SortedBy symCmp tbl) :
    MethodLookupSpec c sel := by
  induction c with
  | root tbl =>
    have hst : BST.SortedBy symCmp tbl := hs tbl (by simp [STClass.chain])
    constructor
    · intro m
      rcases hf : BST.find symCmp tbl sel with _ | p
      · simp only [ST_Internal_Object_getMethod, hf]
        constructor
        · intro h
          exact Option.noConfusion h
        · rintro ⟨i, tbl2, hget, hmem, hmin⟩
          exfalso
          rcases i with _ | i
          · simp only [STClass.chain, List.get?_cons_zero, Option.some_inj]
              at hget
            subst hget
            exact (BST.find_none_iff symCmp_laws hst sel).mp hf m hmem
          · simp [STClass.chain] at hget
      · simp only [ST_Internal_Object_getMethod, hf]
        rcases BST.find_mem symCmp_laws hf with ⟨hpm, hpk⟩
        have hpe : p = (sel, p.2) := by
          rcases p with ⟨p1, p2⟩
          simp only at hpk
          rw [hpk]
        constructor
        · intro h
          cases h
          refine ⟨0, tbl, by simp [STClass.chain], by rw [← hpe]; exact hpm,
            fun j tbl2 hj => absurd hj (Nat.not_lt_zero j)⟩
        · rintro ⟨i, tbl2, hget, hmem, hmin⟩
          rcases i with _ | i
          · simp only [STClass.chain, List.get?_cons_zero, Option.some_inj]
              at hget
            subst hget
            have hfind := BST.mem_find symCmp_laws hst hmem
            rw [hfind] at hf
            cases hf
            rfl
          · simp [STClass.chain] at hget
    · rcases hf : BST.find symCmp tbl sel with _ | p
      · simp only [ST_Internal_Object_getMethod, hf]
        constructor
        · intro _ tbl2 ht2 v
          have h2 : tbl2 = tbl := by
            simpa [STClass.chain] using ht2
          subst h2
          exact (BST.find_none_iff symCmp_laws hst sel).mp hf v
        · intro _
          trivial
      · simp only [ST_Internal_Object_getMethod, hf]
        rcases BST.find_mem symCmp_laws hf with ⟨hpm, hpk⟩
        have hpe : p = (sel, p.2) := by
          rcases p with ⟨p1, p2⟩
          simp only at hpk
          rw [hpk]
        constructor
        · intro h
          exact Option.noConfusion h
        · intro h
          exfalso
          apply h tbl (by simp [STClass.chain]) p.2
          rw [← hpe]
          exact hpm
  | sub tbl sup ih =>
    have hst : BST.SortedBy symCmp tbl := hs tbl (by simp [STClass.chain])
    have hsup : ∀ t2 ∈ STClass.chain sup, BST.SortedBy symCmp t2 := by
      intro t2 ht2
      exact hs t2 (by simp [STClass.chain, ht2])
    have ihs := ih hsup
    rcases hf : BST.find symCmp tbl sel with _ | p
    · constructor
      · intro m
        simp only [ST_Internal_Object_getMethod, hf]
        rw [ihs.1 m]
        constructor
        · rintro ⟨i, tbl2, hget, hmem, hmin⟩
          refine ⟨i + 1, tbl2, by simpa [STClass.chain] using hget, hmem, ?_⟩
          intro j tbl3 hj hget3 v
          rcases j with _ | j
          · simp only [STClass.chain, List.get?_cons_zero, Option.some_inj]
              at hget3
            subst hget3
            exact (BST.find_none_iff symCmp_laws hst sel).mp hf v
          · simp only [STClass.chain, List.get?_cons_succ] at hget3
            exact hmin j tbl3 (by omega) hget3 v
        · rintro ⟨i, tbl2, hget, hmem, hmin⟩
          rcases i with _ | i
          · simp only [STClass.chain, List.get?_cons_zero, Option.some_inj]
              at hget
            subst hget
            exact absurd hmem ((BST.find_none_iff symCmp_laws hst sel).mp hf m)
          · simp only [STClass.chain, List.get?_cons_succ] at hget
            refine ⟨i, tbl2, hget, hmem, ?_⟩
            intro j tbl3 hj hget3 v
            exact hmin (j + 1) tbl3 (by omega)
              (by simpa [STClass.chain] using hget3) v
      · simp only [ST_Internal_Object_getMethod, hf]
        rw [ihs.2]
        constructor
        · intro h tbl2 ht2 v
          rcases (by simpa [STClass.chain] using ht2 :
              tbl2 = tbl ∨ tbl2 ∈ STClass.chain sup) with h2 | h2
          · subst h2
            exact (BST.find_none_iff symCmp_laws hst sel).mp hf v
          · exact h tbl2 h2 v
        · intro h tbl2 ht2 v
          exact h tbl2 (by simp [STClass.chain, ht2]) v
    · rcases BST.find_mem symCmp_laws hf with ⟨hpm, hpk⟩
      have hpe : p = (sel, p.2) := by
        rcases p with ⟨p1, p2⟩
        simp only at hpk
        rw [hpk]
      constructor
      · intro m
        simp only [ST_Internal_Object_getMethod, hf]
        constructor
        · intro h
          cases h
          refine ⟨0, tbl, by simp [STClass.chain], by rw [← hpe]; exact hpm,
            fun j tbl2 hj => absurd hj (Nat.not_lt_zero j)⟩
        · rintro ⟨i, tbl2, hget, hmem, hmin⟩
          rcases i with _ | i
          · simp only [STClass.chain, List.get?_cons_zero, Option.some_inj]
              at hget
            subst hget
            have hfind := BST.mem_find symCmp_laws hst hmem
            rw [hfind] at hf
            cases hf
            rfl
          · exfalso
            exact hmin 0 tbl (by omega) (by simp [STClass.chain]) p.2
              (by rw [← hpe]; exact hpm)
      · simp only [ST_Internal_Object_getMethod, hf]
        constructor
        · intro h
          exact Option.noConfusion h
        · intro h
          exfalso
          apply h tbl (by simp [STClass.chain]) p.2
          rw [← hpe]
          exact hpm

/-- Concrete two-class hierarchy: the subclass overrides selector 7, the
root also defines selectors 7 and 9. -/
def clsParentSample : STClass :=
  STClass.root
    (BST.node (BST.node BST.leaf 9 (STMethod.primitive (PrimFn.host 3) 1)
      BST.leaf) 7 (STMethod.primitive (PrimFn.host 1) 0) BST.leaf)

def clsChildSample : STClass :=
  STClass.sub (BST.node BST.leaf 7 (STMethod.primitive (PrimFn.host 2) 0)
    BST.leaf) clsParentSample

theorem c5_method_lookup_first_match_witness :
    (∀ tbl ∈ STClass.chain clsChildSample, BST.SortedBy symCmp tbl) ∧
      MethodLookupSpec clsChildSample 7 :=
  ⟨by
    intro tbl ht
    simp only [clsChildSample, clsParentSample, STClass.chain,
      List.mem_cons, List.mem_singleton, List.not_mem_nil, or_false] at ht
    rcases ht with h | h <;> subst h <;>
      simp [BST.SortedBy, BST.All, symCmp],
   c5_method_lookup_first_match clsChildSample 7 (by
    intro tbl ht
    simp only [clsChildSample, clsParentSample, STClass.chain,
      List.mem_cons, List.mem_singleton, List.not_mem_nil, or_false] at ht
    rcases ht with h | h <;> subst h <;>
      simp [BST.SortedBy, BST.All, symCmp])⟩

/-!
The dispatcher: ST_sendMsg / ST_failedMethodLookup / ST_new /
ST_doesNotUnderstand of src/src/smalltalk.c, as a fuel-indexed
interpreter.  Compiled-method execution (the VM loop) is an opaque
parameter, and host primitives other than the two built-ins that matter
here are given by a semantics parameter; the claims hold for every choice
of both.
-/

/-- A heap cell: an ordinary instance of a class, or a class object (whose
class pointer refers to itself — the metaclass fix-point, recognised by
ST_isClass). -/
inductive ObjVal where
  | inst (cls : STClass)
  | clsObj (cls : STClass)
deriving DecidableEq, Repr

/-- Immutable bootstrap data of a context: the nil singleton and the
interned identities of the symbols the failure path requests via ST_symb
("new", "doesNotUnderstand:", "MessageNotUnderstood" — all interned during
context construction, so the requests are pure lookups). -/
structure DispatchEnv where
  nilv : Nat
  symbNew : Nat
  symbDNU : Nat
  symbMNU : Nat
deriving DecidableEq, Repr

/-- Mutable context state touched by dispatch: the heap (most recent
binding first), the address of the next allocation, the global scope, the
operand stack (top first), and a ghost trace of every primitive
invocation (function, receiver, argument vector; newest first) — the
observation needed to state whether a host function was called. -/
structure DispatchCtx where
  heap : List (Nat × ObjVal)
  nextAddr : Nat
  globalScope : GlobalScope
  stack : List Nat
  calls : List (PrimFn × Nat × List Nat)
deriving DecidableEq, Repr

/-- Heap lookup by address. -/
def heapFind : List (Nat × ObjVal) → Nat → Option ObjVal
  | [], _ => none
  | (a, o) :: rest, b => if a = b then some o else heapFind rest b

/-- The class at which a send starts its lookup: `receiver->class`, which
for a class object is the class itself (self-referential class
pointer). -/
def DispatchCtx.classOf (ctx : DispatchCtx) (a : Nat) : Option STClass :=
  match heapFind ctx.heap a with
  | some (ObjVal.inst c) => some c
  | some (ObjVal.clsObj c) => some c
  | none => none

/-- Record a primitive invocation in the ghost trace. -/
def pushCall (ctx : DispatchCtx) (fn : PrimFn) (receiver : Nat)
    (argv : List Nat) : DispatchCtx :=
  { ctx with calls := (fn, receiver, argv) :: ctx.calls }

/-- The body of the default doesNotUnderstand: handler, `while (1) ;` — it
produces no value however much fuel it is given. -/
def dnuLoop : Nat → Option (DispatchCtx × Nat)
  | 0 => none
  | Nat.succ n => dnuLoop n

theorem dnuLoop_eq_none : ∀ n, dnuLoop n = none := by
  intro n
  induction n with
  | zero => rfl
  | succ m ih => simpa [dnuLoop] using ih

/-- Execute a primitive method body.  ST_new allocates a fresh instance of
the receiver (the receiver of `new` is the class object itself; a
non-class receiver would make the C code reinterpret instance memory as a
class — undefined, `none`); the default doesNotUnderstand: spins forever;
any other host function's semantics is the total function `hostSem`.
Every invocation is recorded in the trace first. -/
def runPrim (hostSem : Nat → DispatchCtx → Nat → List Nat → DispatchCtx × Nat)
    (fuel : Nat) (fn : PrimFn) (ctx : DispatchCtx) (receiver : Nat)
    (argv : List Nat) : Option (DispatchCtx × Nat) :=
  match fn with
  | PrimFn.stNew =>
    match heapFind (pushCall ctx fn receiver argv).heap receiver with
    | some (ObjVal.clsObj c) =>
      some ({ pushCall ctx fn receiver argv with
                heap := (ctx.nextAddr, ObjVal.inst c) :: ctx.heap,
                nextAddr := ctx.nextAddr + 1 }, ctx.nextAddr)
    | _ => none
  | PrimFn.stDNUDefault => dnuLoop fuel
  | PrimFn.host h =>
    some (hostSem h (pushCall ctx fn receiver argv) receiver argv)

/-- ST_sendMsg: resolve the selector on the receiver's class chain.  On a
primitive hit, a caller argc different from the declared argc returns nil
without running the function; otherwise the primitive runs on
(ctx, receiver, argv) and its result is returned.  On a compiled hit, the
arguments are pushed, the VM runs (`execVM`, opaque here), and the result
plus the arguments are popped.  On a miss, ST_failedMethodLookup runs —
inlined below: send `new` to the global MessageNotUnderstood class, then
deliver doesNotUnderstand: to the receiver with the fresh instance as sole
argument — after which the send returns nil.  `none` means the run did
not complete within `fuel`, or hit undefined behaviour (dangling
receiver, operand-stack underflow). -/
def sendMsg (env : DispatchEnv)
    (hostSem : Nat → DispatchCtx → Nat → List Nat → DispatchCtx × Nat)
    (execVM : DispatchCtx → Nat → Nat → DispatchCtx) :
    Nat → DispatchCtx → Nat → Nat → List Nat → Option (DispatchCtx × Nat)
  | 0, _, _, _, _ => none
  | Nat.succ fuel, ctx, receiver, selector, argv =>
    match DispatchCtx.classOf ctx receiver with
    | none => none
    | some cls =>
      match ST_Internal_Object_getMethod cls selector with
      | some (STMethod.primitive fn n) =>
        if argv.length ≠ n then some (ctx, env.nilv)
        else runPrim hostSem fuel fn ctx receiver argv
      | some (STMethod.compiled codeId off _) =>
        match (execVM { ctx with stack := argv.reverse ++ ctx.stack }
            codeId off).stack with
        | [] => none
        | result :: rest =>
          some ({ execVM { ctx with stack := argv.reverse ++ ctx.stack }
              codeId off with stack := rest.drop argv.length }, result)
      | none =>
        match sendMsg env hostSem execVM fuel ctx
            (ST_getGlobal env.nilv ctx.globalScope env.symbMNU)
            env.symbNew [] with
        | some (ctx1, err) =>
          match sendMsg env hostSem execVM fuel ctx1 receiver
              env.symbDNU [err] with
          | some (ctx2, _) => some (ctx2, env.nilv)
          | none => none
        | none => none

/-- C8: when a send resolves to a host primitive method, a caller argc
different from the declared argc makes sendMsg return nil without invoking
the host function (the context, including the invocation trace, is
unchanged); a matching argc invokes the host function on
(ctx, receiver, argv) — the invocation appearing in the trace — and
returns its result to the caller. -/
theorem c8_primitive_arity_check (env : DispatchEnv)
    (hostSem : Nat → DispatchCtx → Nat → List Nat → DispatchCtx × Nat)
    (execVM : DispatchCtx → Nat → Nat → DispatchCtx)
    (fuel : Nat) (ctx : DispatchCtx) (receiver selector : Nat)
    (argv : List Nat) (cls : STClass) (h n : Nat)
    (hcls : DispatchCtx.classOf ctx receiver = some cls)
    (hm : ST_Internal_Object_getMethod cls selector =
      some (STMethod.primitive (PrimFn.host h) n)) :
    (argv.length ≠ n →
      sendMsg env hostSem execVM (fuel + 1) ctx receiver selector argv =
        some (ctx, env.nilv)) ∧
    (argv.length = n →
      sendMsg env hostSem execVM (fuel + 1) ctx receiver selector argv =
        some (hostSem h (pushCall ctx (PrimFn.host h) receiver argv)
          receiver argv)) := by
  constructor
  · intro hne
    simp only [sendMsg, hcls, hm, if_pos hne]
  · intro heq
    simp only [sendMsg, hcls, hm, runPrim,
      if_neg (by omega : ¬argv.length ≠ n)]

/-- A one-class context with a two-argument host primitive under
selector 5, used to instantiate the C8 theorem. -/
def clsPrimSample : STClass :=
  STClass.root
    (BST.node BST.leaf 5 (STMethod.primitive (PrimFn.host 4) 2) BST.leaf)

def ctxPrimSample : DispatchCtx :=
  { heap := [(0, ObjVal.inst clsPrimSample)]
    nextAddr := 1
    globalScope := BST.leaf
    stack := []
    calls := [] }

def hostSemSample : Nat → DispatchCtx → Nat → List Nat → DispatchCtx × Nat :=
  fun _ c _ _ => (c, 77)

def execVMTrivial : DispatchCtx → Nat → Nat → DispatchCtx := fun c _ _ => c

def envSample : DispatchEnv :=
  { nilv := 42, symbNew := 0, symbDNU := 1, symbMNU := 2 }

theorem c8_primitive_arity_check_witness :
    DispatchCtx.classOf ctxPrimSample 0 = some clsPrimSample ∧
    ST_Internal_Object_getMethod clsPrimSample 5 =
      some (STMethod.primitive (PrimFn.host 4) 2) ∧
    (([8, 9] : List Nat).length = 2 →
      sendMsg envSample hostSemSample execVMTrivial (3 + 1) ctxPrimSample
        0 5 [8, 9] =
        some (hostSemSample 4 (pushCall ctxPrimSample (PrimFn.host 4) 0 [8, 9])
          0 [8, 9])) :=
  ⟨rfl, rfl,
   (c8_primitive_arity_check envSample hostSemSample execVMTrivial 3
     ctxPrimSample 0 5 [8, 9] clsPrimSample 4 2 rfl rfl).2⟩

/-!
C2: the failed-lookup path.  ST_failedMethodLookup constructs a
MessageNotUnderstood instance and delivers doesNotUnderstand:, after which
ST_sendMsg returns nil — but the default doesNotUnderstand: installed on
Object by ST_initErrorHandling is `while (1) ;`, so a send that reaches
the default handler never completes.
-/

/-- The Object class's method table as installed by bootstrap and
ST_initErrorHandling: `new` (symbol 0) is ST_new, `doesNotUnderstand:`
(symbol 1) is the default ST_doesNotUnderstand.  Symbol-identity trees
keep larger keys to the left. -/
def objectTreeSample : BST Nat STMethod :=
  BST.node
    (BST.node BST.leaf 1 (STMethod.primitive PrimFn.stDNUDefault 1) BST.leaf)
    0 (STMethod.primitive PrimFn.stNew 0) BST.leaf

def clsObjectSample : STClass := STClass.root objectTreeSample

def clsMNUSample : STClass := STClass.sub BST.leaf clsObjectSample

def clsXSample : STClass := STClass.sub BST.leaf clsObjectSample

/-- A context holding the MessageNotUnderstood class object (address 10,
bound to global symbol 2) and one instance of an empty user class
(address 11).  Selector 3 is not understood anywhere on its chain. -/
def ctxDNUSample : DispatchCtx :=
  { heap := [(10, ObjVal.clsObj clsMNUSample), (11, ObjVal.inst clsXSample)]
    nextAddr := 12
    globalScope := BST.node BST.leaf 2 10 BST.leaf
    stack := []
    calls := [] }

/-- C2 counterexample: with the default doesNotUnderstand: handler, the
send of an unknown selector never terminates — for every fuel bound the
run fails to complete, refuting the claim that the send terminates
returning nil (the runtime does construct the MessageNotUnderstood
instance and does deliver doesNotUnderstand:, but the default handler
loops forever). -/
theorem c2_default_dnu_never_returns :
    (fun fuel => sendMsg envSample hostSemSample execVMTrivial fuel
      ctxDNUSample 11 3 []) = fun _ => (none : Option (DispatchCtx × Nat)) := by
  funext fuel
  match fuel with
  | 0 => rfl
  | 1 => rfl
  | (m + 2) =>
    simp [sendMsg, runPrim, DispatchCtx.classOf, heapFind, pushCall,
      ST_Internal_Object_getMethod, BST.find, symCmp, ST_getGlobal,
      envSample, ctxDNUSample, clsXSample, clsObjectSample, clsMNUSample,
      objectTreeSample, dnuLoop_eq_none]

/-- The context in which ST_failedMethodLookup runs a resolved
doesNotUnderstand: handler: the MessageNotUnderstood instance has been
allocated at the bump address (ST_new invocation on the trace) and the
handler invocation — receiver plus the instance as the sole argument — is
on the trace. -/
def dnuDeliveryCtx (ctx : DispatchCtx) (mnuAddr : Nat) (mnuCls : STClass)
    (h : Nat) (receiver : Nat) : DispatchCtx :=
  pushCall
    { pushCall ctx PrimFn.stNew mnuAddr [] with
        heap := (ctx.nextAddr, ObjVal.inst mnuCls) :: ctx.heap,
        nextAddr := ctx.nextAddr + 1 }
    (PrimFn.host h) receiver [ctx.nextAddr]

/-- C2 amended: whenever sendMsg finds no method for the selector on the
receiver's class chain, it constructs a MessageNotUnderstood instance
(allocated fresh at the bump address, its class read from the global
MessageNotUnderstood binding) and delivers doesNotUnderstand: to the
receiver with that instance as the sole argument, and the send then
returns nil — provided the doesNotUnderstand: method the receiver's chain
resolves is a terminating host function.  (The default handler installed
on Object loops forever, so such a send never returns; see the
counterexample.) -/
theorem c2_failed_lookup_delivers_mnu (env : DispatchEnv)
    (hostSem : Nat → DispatchCtx → Nat → List Nat → DispatchCtx × Nat)
    (execVM : DispatchCtx → Nat → Nat → DispatchCtx)
    (fuel : Nat) (ctx : DispatchCtx) (receiver selector : Nat)
    (argv : List Nat) (cls mnuCls : STClass) (mnuAddr h : Nat)
    (hcls : DispatchCtx.classOf ctx receiver = some cls)
    (hmiss : ST_Internal_Object_getMethod cls selector = none)
    (hmnu : ST_getGlobal env.nilv ctx.globalScope env.symbMNU = mnuAddr)
    (hmnucls : heapFind ctx.heap mnuAddr = some (ObjVal.clsObj mnuCls))
    (hnew : ST_Internal_Object_getMethod mnuCls env.symbNew =
      some (STMethod.primitive PrimFn.stNew 0))
    (hfresh : heapFind ctx.heap ctx.nextAddr = none)
    (hdnu : ST_Internal_Object_getMethod cls env.symbDNU =
      some (STMethod.primitive (PrimFn.host h) 1)) :
    sendMsg env hostSem execVM (fuel + 2) ctx receiver selector argv =
      some ((hostSem h (dnuDeliveryCtx ctx mnuAddr mnuCls h receiver)
        receiver [ctx.nextAddr]).1, env.nilv) := by
  have hrecne : ctx.nextAddr ≠ receiver := by
    intro hx
    unfold DispatchCtx.classOf at hcls
    rw [← hx, hfresh] at hcls
    exact Option.noConfusion hcls
  have hclsm : DispatchCtx.classOf ctx mnuAddr = some mnuCls := by
    unfold DispatchCtx.classOf
    rw [hmnucls]
  have hcls2 : DispatchCtx.classOf
      { pushCall ctx PrimFn.stNew mnuAddr [] with
          heap := (ctx.nextAddr, ObjVal.inst mnuCls) :: ctx.heap,
          nextAddr := ctx.nextAddr + 1 } receiver = some cls := by
    unfold DispatchCtx.classOf at hcls ⊢
    simp only [pushCall, heapFind, if_neg hrecne]
    exact hcls
  show sendMsg env hostSem execVM (Nat.succ (Nat.succ fuel)) ctx receiver
    selector argv = _
  simp only [sendMsg, hcls, hmiss, hmnu, hclsm, hnew, runPrim, pushCall,
    hmnucls, List.length_nil, ne_eq, not_true_eq_false, if_false,
    ite_false]
  simp only [sendMsg, runPrim, pushCall] at hcls2 ⊢
  simp only [hcls2, hdnu, List.length_cons, List.length_nil, ne_eq,
    not_true_eq_false, if_false, ite_false, dnuDeliveryCtx, pushCall]

/-- A user class overriding doesNotUnderstand: (symbol 1) with a
terminating host handler, used to instantiate the amended C2 theorem. -/
def clsYSample : STClass :=
  STClass.sub
    (BST.node BST.leaf 1 (STMethod.primitive (PrimFn.host 9) 1) BST.leaf)
    clsObjectSample

def ctxDNUHostSample : DispatchCtx :=
  { heap := [(10, ObjVal.clsObj clsMNUSample), (11, ObjVal.inst clsYSample)]
    nextAddr := 12
    globalScope := BST.node BST.leaf 2 10 BST.leaf
    stack := []
    calls := [] }

theorem c2_failed_lookup_delivers_mnu_witness :
    DispatchCtx.classOf ctxDNUHostSample 11 = some clsYSample ∧
    ST_Internal_Object_getMethod clsYSample 3 = none ∧
    sendMsg envSample hostSemSample execVMTrivial (0 + 2) ctxDNUHostSample
        11 3 [] =
      some ((hostSemSample 9
        (dnuDeliveryCtx ctxDNUHostSample 10 clsMNUSample 9 11) 11 [12]).1,
        42) :=
  ⟨rfl, rfl,
   c2_failed_lookup_delivers_mnu envSample hostSemSample execVMTrivial 0
     ctxDNUHostSample 11 3 [] clsYSample clsMNUSample 10 9
     rfl rfl rfl rfl rfl rfl rfl⟩

/-!
Symbol interning: ST_symb / ST_Symbol_toString of src/src/smalltalk.c.
-/

/-- The symbol registry: the string-keyed BST mapping source strings to
symbol objects (addresses), plus the bump address handed to the next
fresh Symbol instance (in C a `Symbol new` send allocates it). -/
structure SymRegistry where
  registry : BST String Nat
  nextAddr : Nat
deriving DecidableEq, Repr

/-- ST_symb: look the name up in the registry; a hit returns the interned
symbol object.  A miss allocates a fresh Symbol instance, marks it
PRESERVE, and inserts the mapping; an insert failure — impossible right
after the failed find — frees the entry and returns nil. -/
def ST_symb (nilv : Nat) (st : SymRegistry) (symbolName : String) :
    Nat × SymRegistry :=
  match BST.find strCmp st.registry symbolName with
  | some p => (p.2, st)
  | none =>
    match BST.insert strCmp st.registry symbolName st.nextAddr with
    | some reg2 =>
      (st.nextAddr, { registry := reg2, nextAddr := st.nextAddr + 1 })
    | none => (nilv, st)

/-- ST_Symbol_toString: ST_BST_traverse walks the registry in order and
ST_findSymbolNameByValue overwrites the result with the key of every
entry whose value equals the symbol; no match leaves NULL (`none`). -/
def ST_Symbol_toString (st : SymRegistry) (symbol : Nat) : Option String :=
  (BST.entries st.registry).foldl
    (fun acc p => if p.2 = symbol then some p.1 else acc) none

/-- Registry well-formedness, established by the bootstrap and preserved
by interning: sorted by strcmp, every interned symbol lies below the bump
address, and distinct entries carry distinct symbols. -/
def SymRegistry.WF (st : SymRegistry) : Prop :=
  BST.SortedBy strCmp st.registry ∧
  (∀ p ∈ BST.entries st.registry, p.2 < st.nextAddr) ∧
  (∀ p q, p ∈ BST.entries st.registry → q ∈ BST.entries st.registry →
    p.2 = q.2 → p = q)

theorem ST_symb_find_some {st : SymRegistry} {s : String} {p : String × Nat}
    (nilv : Nat) (hf : BST.find strCmp st.registry s = some p) :
    ST_symb nilv st s = (p.2, st) := by
  unfold ST_symb
  rw [hf]

theorem ST_symb_find_none {st : SymRegistry} {s : String}
    {reg2 : BST String Nat} (nilv : Nat)
    (hf : BST.find strCmp st.registry s = none)
    (hi : BST.insert strCmp st.registry s st.nextAddr = some reg2) :
    ST_symb nilv st s =
      (st.nextAddr, { registry := reg2, nextAddr := st.nextAddr + 1 }) := by
  unfold ST_symb
  rw [hf, hi]

theorem ST_symb_insert_ok {st : SymRegistry} {s : String}
    (hsort : BST.SortedBy strCmp st.registry)
    (hf : BST.find strCmp st.registry s = none) :
    BST.insert strCmp st.registry s st.nextAddr ≠ none := by
  intro hi
  rcases (BST.insert_none_iff strCmp_laws hsort s st.nextAddr).mp hi
    with ⟨w, hw⟩
  rw [BST.mem_find strCmp_laws hsort hw] at hf
  exact Option.noConfusion hf

theorem ST_symb_wf (nilv : Nat) {st : SymRegistry} (hwf : SymRegistry.WF st)
    (s : String) : SymRegistry.WF (ST_symb nilv st s).2 := by
  rcases hwf with ⟨hsort, hbound, hinj⟩
  rcases hf : BST.find strCmp st.registry s with _ | p
  · rcases hi : BST.insert strCmp st.registry s st.nextAddr with _ | reg2
    · exact absurd hi (ST_symb_insert_ok hsort hf)
    · rw [ST_symb_find_none nilv hf hi]
      dsimp only
      refine ⟨BST.insert_sorted strCmp_laws hsort hi, ?_, ?_⟩
      · intro p hp
        rcases (BST.insert_entries hi p).mp hp with hp2 | hp2
        · subst hp2
          exact Nat.lt_succ_self _
        · exact Nat.lt_succ_of_lt (hbound p hp2)
      · intro p q hp hq hpq
        rcases (BST.insert_entries hi p).mp hp with hp2 | hp2 <;>
          rcases (BST.insert_entries hi q).mp hq with hq2 | hq2
        · rw [hp2, hq2]
        · subst hp2
          have := hbound q hq2
          simp only at hpq
          omega
        · subst hq2
          have := hbound p hp2
          simp only at hpq
          omega
        · exact hinj p q hp2 hq2 hpq
  · rw [ST_symb_find_some nilv hf]
    dsimp only
    exact ⟨hsort, hbound, hinj⟩

theorem ST_symb_mem (nilv : Nat) {st : SymRegistry} (hwf : SymRegistry.WF st)
    (s : String) :
    (s, (ST_symb nilv st s).1) ∈
      BST.entries (ST_symb nilv st s).2.registry := by
  rcases hwf with ⟨hsort, hbound, hinj⟩
  rcases hf : BST.find strCmp st.registry s with _ | p
  · rcases hi : BST.insert strCmp st.registry s st.nextAddr with _ | reg2
    · exact absurd hi (ST_symb_insert_ok hsort hf)
    · rw [ST_symb_find_none nilv hf hi]
      dsimp only
      exact (BST.insert_entries hi (s, st.nextAddr)).mpr (Or.inl rfl)
  · rw [ST_symb_find_some nilv hf]
    rcases BST.find_mem strCmp_laws hf with ⟨hm, hk⟩
    rcases p with ⟨p1, p2⟩
    simp only at hk hm ⊢
    rw [← hk]
    exact hm

theorem foldl_lastMatch {l : List (String × Nat)} {a : Nat} {s : String}
    (huniq : ∀ p ∈ l, p.2 = a → p.1 = s) :
    ∀ acc : Option String, ((s, a) ∈ l ∨ acc = some s) →
      l.foldl (fun acc2 p => if p.2 = a then some p.1 else acc2) acc =
        some s := by
  induction l with
  | nil =>
    intro acc hacc
    rcases hacc with hacc | hacc
    · simp at hacc
    · simpa using hacc
  | cons x xs ih =>
    intro acc hacc
    have huxs : ∀ p ∈ xs, p.2 = a → p.1 = s := by
      intro p hp
      exact huniq p (List.mem_cons_of_mem x hp)
    simp only [List.foldl_cons]
    rcases Decidable.em (x.2 = a) with hx | hx
    · rw [if_pos hx]
      apply ih huxs
      exact Or.inr (by rw [huniq x (List.mem_cons_self x xs) hx])
    · rw [if_neg hx]
      apply ih huxs
      rcases hacc with hacc | hacc
      · rcases List.mem_cons.mp hacc with hacc2 | hacc2
        · exfalso
          apply hx
          rw [← hacc2]
        · exact Or.inl hacc2
      · exact Or.inr hacc

/-- The claimed interning behaviour for two successive ST_symb requests
and the reverse lookup: the second request returns the same Symbol object
as the first exactly when the strings are equal, and Symbol_toString
applied to an interned symbol returns its string. -/
def SymbolInternSpec (nilv : Nat) (st : SymRegistry) (s1 s2 : String) : Prop :=
  ((ST_symb nilv (ST_symb nilv st s1).2 s2).1 = (ST_symb nilv st s1).1 ↔
    s1 = s2) ∧
  ST_Symbol_toString (ST_symb nilv st s1).2 (ST_symb nilv st s1).1 = some s1

/-- C7: symb(s1) and symb(s2) return the same Symbol object if and only
if the strings are equal, and Symbol_toString(symb(s)) returns s. -/
theorem c7_symbol_identity (nilv : Nat) (st : SymRegistry) (s1 s2 : String)
    (hwf : SymRegistry.WF st) : SymbolInternSpec nilv st s1 s2 := by
  have hwf1 := ST_symb_wf nilv hwf s1
  have hmem1 := ST_symb_mem nilv hwf s1
  rcases hwf1 with ⟨hsort1, hbound1, hinj1⟩
  refine ⟨⟨?_, ?_⟩, ?_⟩
  · intro heq
    by_contra hne
    rcases hf2 : BST.find strCmp (ST_symb nilv st s1).2.registry s2 with _ | q
    · rcases hi2 : BST.insert strCmp (ST_symb nilv st s1).2.registry s2
          (ST_symb nilv st s1).2.nextAddr with _ | reg3
      · exact absurd hi2 (ST_symb_insert_ok hsort1 hf2)
      · rw [ST_symb_find_none nilv hf2 hi2] at heq
        dsimp only at heq
        have hb := hbound1 _ hmem1
        omega
    · rw [ST_symb_find_some nilv hf2] at heq
      dsimp only at heq
      rcases BST.find_mem strCmp_laws hf2 with ⟨hqm, hqk⟩
      have hq2 := hinj1 q (s1, (ST_symb nilv st s1).1) hqm hmem1 (by rw [heq])
      apply hne
      rw [← hqk, hq2]
  · intro heq
    subst heq
    rw [ST_symb_find_some nilv (BST.mem_find strCmp_laws hsort1 hmem1)]
  · unfold ST_Symbol_toString
    apply foldl_lastMatch
    · intro p hp hpa
      have hp2 := hinj1 p (s1, (ST_symb nilv st s1).1) hp hmem1 hpa
      rw [hp2]
    · exact Or.inl hmem1

/-- The empty registry (the real registry starts non-empty from the
bootstrap, but any well-formed registry instantiates the theorem). -/
def symRegSample : SymRegistry := { registry := BST.leaf, nextAddr := 3 }

theorem c7_symbol_identity_witness :
    SymRegistry.WF symRegSample ∧ SymbolInternSpec 0 symRegSample "foo" "bar" :=
  ⟨⟨trivial, by simp [symRegSample, BST.entries], by
      simp [symRegSample, BST.entries]⟩,
   c7_symbol_identity 0 symRegSample "foo" "bar"
     ⟨trivial, by simp [symRegSample, BST.entries], by
       simp [symRegSample, BST.entries]⟩⟩

/-!
C3: instance-variable access.  The host accessors of the bootstrap
runtime, ST_Object_getInstanceVar / ST_Object_setInstanceVar
(src/smalltalk.c), assert `position >= obj->instanceVariableCount` — the
inverted bound — before indexing; the later runtime declares ST_getIVar /
ST_setIVar in its header but defines neither, and its VM cases GETIVAR /
SETIVAR (src/src/smalltalk.c) index `ST_Object_getIVars(target)[i]` with
no check at all.
-/

/-- An object of the bootstrap runtime, reduced to its instance-variable
array (`instanceVariables`, of length `instanceVariableCount`). -/
structure OldObj where
  instanceVariables : List Nat
deriving DecidableEq, Repr

/-- Outcome of a read access: a completed read, an abort from the failed
assert, or an unchecked read past the end of the array. -/
inductive IVarOutcome where
  | ok (value : Nat)
  | assertFailed
  | outOfBounds
deriving DecidableEq, Repr

/-- Outcome of a write access. -/
inductive IVarSetOutcome where
  | ok (obj : OldObj)
  | assertFailed
  | outOfBounds
deriving DecidableEq, Repr

/-- ST_Object_getInstanceVar:
`assert(position >= obj->instanceVariableCount)` and then
`return obj->instanceVariables[position]`.  When the assert passes,
`position` is at or past the end of the array, so the read is always out
of bounds; when it fails the process aborts. -/
def ST_Object_getInstanceVar (obj : OldObj) (position : Nat) : IVarOutcome :=
  if position ≥ obj.instanceVariables.length then
    match obj.instanceVariables.get? position with
    | some v => IVarOutcome.ok v
    | none => IVarOutcome.outOfBounds
  else IVarOutcome.assertFailed

/-- ST_Object_setInstanceVar: same inverted assert, then
`obj->instanceVariables[position] = value`.  The in-bounds store is
modelled for transparency but is unreachable: the assert only passes at
or past the end of the array. -/
def ST_Object_setInstanceVar (obj : OldObj) (position : Nat) (value : Nat) :
    IVarSetOutcome :=
  if position ≥ obj.instanceVariables.length then
    if position < obj.instanceVariables.length then
      IVarSetOutcome.ok
        { instanceVariables := obj.instanceVariables.set position value }
    else IVarSetOutcome.outOfBounds
  else IVarSetOutcome.assertFailed

/-- The GETIVAR case of ST_Internal_VM_execute in src/src/smalltalk.c:
read `ST_Object_getIVars(target)[ivarIndex]` with no bounds check — an
index at or past the ivar count reads past the allocation (undefined,
`none`); no error is signalled. -/
def vmGetIVarUnchecked (ivars : List Nat) (ivarIndex : Nat) : Option Nat :=
  ivars.get? ivarIndex

/-- C3: the claimed contract is "i < ivarCount required, else error".  On
the code, for an object with one instance variable: the in-bounds read
and write at index 0 fail the (inverted) assert and abort, the
out-of-bounds accesses at index 1 pass the assert and run unchecked past
the array, and the VM's GETIVAR performs no check and signals no error on
any out-of-bounds index. -/
theorem c3_ivar_bounds_check_inverted :
    ST_Object_getInstanceVar { instanceVariables := [7] } 0 =
      IVarOutcome.assertFailed ∧
    ST_Object_getInstanceVar { instanceVariables := [7] } 1 =
      IVarOutcome.outOfBounds ∧
    ST_Object_setInstanceVar { instanceVariables := [7] } 0 9 =
      IVarSetOutcome.assertFailed ∧
    ST_Object_setInstanceVar { instanceVariables := [7] } 1 9 =
      IVarSetOutcome.outOfBounds ∧
    (∀ i, vmGetIVarUnchecked [7] (1 + i) = none) := by
  refine ⟨rfl, rfl, rfl, rfl, ?_⟩
  intro i
  unfold vmGetIVarUnchecked
  apply List.get?_eq_none.mpr
  simp

/-!
C4: the opcode numbering.  src/src/opcode.h fixes the order ("Always add
to the end, and don't reorder!") that the claim states and that the
project's disassembler (src/util/bytecodePrinter.cpp) decodes with; but
ST_Internal_VM_execute in src/src/smalltalk.c switches on a private
ST_VM_Opcode enum declared in that file with a different order, and has
no PUSHSUPER case at all.
-/

/-- The opcode names of the instruction set. -/
inductive OpName where
  | PUSHNIL
  | PUSHTRUE
  | PUSHFALSE
  | PUSHSUPER
  | DUP
  | POP
  | SWAP
  | RETURN
  | GETGLOBAL
  | SETGLOBAL
  | GETIVAR
  | SETIVAR
  | SENDMSG
  | PUSHSYMBOL
  | SETMETHOD
deriving DecidableEq, Repr

/-- The numbering declared by the ST_VM_Opcode enum of src/src/opcode.h. -/
def opcodeHeaderNum : OpName → Nat
  | OpName.PUSHNIL => 0
  | OpName.PUSHTRUE => 1
  | OpName.PUSHFALSE => 2
  | OpName.PUSHSUPER => 3
  | OpName.DUP => 4
  | OpName.POP => 5
  | OpName.SWAP => 6
  | OpName.RETURN => 7
  | OpName.GETGLOBAL => 8
  | OpName.SETGLOBAL => 9
  | OpName.GETIVAR => 10
  | OpName.SETIVAR => 11
  | OpName.SENDMSG => 12
  | OpName.PUSHSYMBOL => 13
  | OpName.SETMETHOD => 14

/-- The decoding performed by the interpreter loop's switch in
src/src/smalltalk.c, which follows the private ST_VM_Opcode enum declared
there (GETGLOBAL = 0, SETGLOBAL, PUSHNIL, PUSHTRUE, PUSHFALSE,
PUSHSYMBOL, SENDMSG, SETMETHOD, RETURN, GETIVAR, SETIVAR, DUP, POP,
SWAP); the switch has no case for SWAP or PUSHSUPER, and unknown bytes
fall to `default: return`. -/
def vmDecode : Nat → Option OpName
  | 0 => some OpName.GETGLOBAL
  | 1 => some OpName.SETGLOBAL
  | 2 => some OpName.PUSHNIL
  | 3 => some OpName.PUSHTRUE
  | 4 => some OpName.PUSHFALSE
  | 5 => some OpName.PUSHSYMBOL
  | 6 => some OpName.SENDMSG
  | 7 => some OpName.SETMETHOD
  | 8 => some OpName.RETURN
  | 9 => some OpName.GETIVAR
  | 10 => some OpName.SETIVAR
  | 11 => some OpName.DUP
  | 12 => some OpName.POP
  | _ => none

set_option maxRecDepth 4096 in
/-- C4: the header's numbering is exactly the claimed fixed order
(PUSHNIL = 0 through SETMETHOD = 14), but the VM interpreter loop does
not decode by it: instruction byte 0 dispatches GETGLOBAL rather than
PUSHNIL, the byte the header assigns to PUSHSUPER dispatches PUSHTRUE,
and no instruction byte at all dispatches PUSHSUPER. -/
theorem c4_vm_decodes_against_header_numbering :
    (opcodeHeaderNum OpName.PUSHNIL = 0 ∧ opcodeHeaderNum OpName.PUSHTRUE = 1 ∧
     opcodeHeaderNum OpName.PUSHFALSE = 2 ∧
     opcodeHeaderNum OpName.PUSHSUPER = 3 ∧ opcodeHeaderNum OpName.DUP = 4 ∧
     opcodeHeaderNum OpName.POP = 5 ∧ opcodeHeaderNum OpName.SWAP = 6 ∧
     opcodeHeaderNum OpName.RETURN = 7 ∧ opcodeHeaderNum OpName.GETGLOBAL = 8 ∧
     opcodeHeaderNum OpName.SETGLOBAL = 9 ∧
     opcodeHeaderNum OpName.GETIVAR = 10 ∧
     opcodeHeaderNum OpName.SETIVAR = 11 ∧
     opcodeHeaderNum OpName.SENDMSG = 12 ∧
     opcodeHeaderNum OpName.PUSHSYMBOL = 13 ∧
     opcodeHeaderNum OpName.SETMETHOD = 14) ∧
    vmDecode 0 = some OpName.GETGLOBAL ∧
    vmDecode (opcodeHeaderNum OpName.PUSHNIL) ≠ some OpName.PUSHNIL ∧
    vmDecode (opcodeHeaderNum OpName.PUSHSUPER) = some OpName.PUSHTRUE ∧
    (∀ b : Fin 256, vmDecode b.val ≠ some OpName.PUSHSUPER) := by
  refine ⟨⟨rfl, rfl, rfl, rfl, rfl, rfl, rfl, rfl, rfl, rfl, rfl, rfl, rfl,
    rfl, rfl⟩, rfl, by decide, rfl, by decide⟩

/-!
Arrays: ST_Array_new / ST_Array_at / ST_Array_set of src/src/smalltalk.c.
An Array instance has two ivars: ivars[0] ("data") heads a singly linked
list of ListNode instances (ivars: [0] "next", [1] "element"), ivars[1]
("length") is a boxed Integer.  The `rawGet` sends these functions make
on the index and length boxes resolve (per the C5 lookup result) to the
Integer primitive ST_Integer_rawGet, which returns the stored value; the
resolved primitive is inlined as a heap read.
-/

/-- A heap cell of the array subsystem: a boxed Integer (ST_Integer), a
ListNode instance (next, element), or an Array instance (data head,
length box). -/
inductive HObj where
  | intBox (value : Int)
  | listNode (next : Nat) (element : Nat)
  | arrObj (dataHead : Nat) (lenBox : Nat)
deriving DecidableEq, Repr

/-- Array-subsystem heap: addresses to cells, most recent binding first;
a write shadows the previous binding of its address. -/
abbrev AHeap := List (Nat × HObj)

def ahFind : AHeap → Nat → Option HObj
  | [], _ => none
  | (a, o) :: rest, b => if a = b then some o else ahFind rest b

/-- ST_Integer_rawGet on a boxed Integer: the stored value.  On anything
else the send would take the doesNotUnderstand: path (`none` here). -/
def rawGetI (h : AHeap) (a : Nat) : Option Int :=
  match ahFind h a with
  | some (HObj.intBox v) => some v
  | _ => none

/-- The list walk of ST_Array_at / ST_Array_set: from the data head,
follow `next` (node ivar 0) the given number of times; a broken chain
dereferences garbage (`none`). -/
def listAdvance (h : AHeap) : Nat → Nat → Option Nat
  | node, 0 => some node
  | node, Nat.succ k =>
    match ahFind h node with
    | some (HObj.listNode nxt _) => listAdvance h nxt k
    | _ => none

/-- ST_Array_at: unbox the index argument and the length ivar; if
-1 < index < length, walk to the index-th node and return its element
(ivar 1); otherwise return nil.  The function writes nothing, so the
unchanged heap is returned with the result. -/
def ST_Array_at (nilv : Nat) (h : AHeap) (self idxBox : Nat) :
    Option (AHeap × Nat) :=
  match ahFind h self with
  | some (HObj.arrObj dataHead lenBox) =>
    match rawGetI h idxBox, rawGetI h lenBox with
    | some index, some length =>
      if -1 < index ∧ index < length then
        match listAdvance h dataHead index.toNat with
        | some node =>
          match ahFind h node with
          | some (HObj.listNode _ e) => some (h, e)
          | _ => none
        | none => none
      else some (h, nilv)
    | _, _ => none
  | _ => none

/-- ST_Array_set (at:put:): like ST_Array_at but stores the value into
the reached node's element slot; returns nil in both the in-range and
the out-of-range case. -/
def ST_Array_set (nilv : Nat) (h : AHeap) (self idxBox v : Nat) :
    Option (AHeap × Nat) :=
  match ahFind h self with
  | some (HObj.arrObj dataHead lenBox) =>
    match rawGetI h idxBox, rawGetI h lenBox with
    | some index, some length =>
      if -1 < index ∧ index < length then
        match listAdvance h dataHead index.toNat with
        | some node =>
          match ahFind h node with
          | some (HObj.listNode nxt _) =>
            some ((node, HObj.listNode nxt v) :: h, nilv)
          | _ => none
        | none => none
      else some (h, nilv)
    | _, _ => none
  | _ => none

/-- The data-list shape: `addrs` are the node addresses from `head`, each
a `listNode` cell whose next pointer is the following address; the last
node's next pointer is `tail`.  (For a full Array data list, `tail` is
nil and `addrs` covers all nodes.) -/
inductive IsChainTail (h : AHeap) : Nat → List Nat → Nat → Prop
  | nil (a : Nat) : IsChainTail h a [] a
  | cons (a nxt e tailv : Nat) (rest : List Nat)
      (hnode : ahFind h a = some (HObj.listNode nxt e))
      (htail : IsChainTail h nxt rest tailv) :
      IsChainTail h a (a :: rest) tailv

theorem IsChainTail.advance {h : AHeap} {head tailv : Nat} {addrs : List Nat}
    (hc : IsChainTail h head addrs tailv) :
    ∀ i, i < addrs.length → listAdvance h head i = addrs.get? i := by
  induction hc with
  | nil a =>
    intro i hi
    simp at hi
  | cons a nxt e tailv rest hnode htail ih =>
    intro i hi
    rcases i with _ | i
    · simp [listAdvance]
    · simp only [listAdvance, hnode, List.get?_cons_succ]
      exact ih i (by simpa using hi)

theorem IsChainTail.node_cells {h : AHeap} {head tailv : Nat}
    {addrs : List Nat} (hc : IsChainTail h head addrs tailv) :
    ∀ a ∈ addrs, ∃ nxt e, ahFind h a = some (HObj.listNode nxt e) := by
  induction hc with
  | nil a =>
    intro b hb
    simp at hb
  | cons a nxt e tailv rest hnode htail ih =>
    intro b hb
    rcases List.mem_cons.mp hb with hb | hb
    · subst hb
      exact ⟨nxt, e, hnode⟩
    · exact ih b hb

theorem IsChainTail.write_elem {h : AHeap} {head tailv : Nat}
    {addrs : List Nat} (hc : IsChainTail h head addrs tailv)
    {nd nxt e : Nat} (v : Nat)
    (hfind : ahFind h nd = some (HObj.listNode nxt e)) :
    IsChainTail ((nd, HObj.listNode nxt v) :: h) head addrs tailv := by
  induction hc with
  | nil a => exact IsChainTail.nil a
  | cons a nxta ea tailv rest hnode htail ih =>
    rcases Decidable.em (nd = a) with he | he
    · subst he
      rw [hfind] at hnode
      cases hnode
      exact IsChainTail.cons _ _ v _ _ (by simp [ahFind]) ih
    · refine IsChainTail.cons _ _ ea _ _ ?_ ih
      simp only [ahFind, if_neg he]
      exact hnode

theorem IsChainTail.cons_out {h : AHeap} {head tailv : Nat}
    {addrs : List Nat} (hc : IsChainTail h head addrs tailv)
    {b : Nat} (o : HObj) (hout : b ∉ addrs) :
    IsChainTail ((b, o) :: h) head addrs tailv := by
  induction hc with
  | nil a => exact IsChainTail.nil a
  | cons a nxta ea tailv rest hnode htail ih =>
    have hba : b ≠ a := by
      intro hx
      exact hout (by rw [hx]; exact List.mem_cons_self a rest)
    refine IsChainTail.cons _ _ ea _ _ ?_
      (ih (fun hx => hout (List.mem_cons_of_mem a hx)))
    simp only [ahFind, if_neg hba]
    exact hnode

theorem IsChainTail.append_node {h : AHeap} {head tailv : Nat}
    {addrs : List Nat} (hc : IsChainTail h head addrs tailv)
    {nxt e : Nat} (hfind : ahFind h tailv = some (HObj.listNode nxt e)) :
    IsChainTail h head (addrs ++ [tailv]) nxt := by
  induction hc with
  | nil a => exact IsChainTail.cons _ _ e _ _ hfind (IsChainTail.nil nxt)
  | cons a nxta ea tailv rest hnode htail ih =>
    exact IsChainTail.cons _ _ ea _ _ hnode (ih hfind)

/-- Well-formedness of an Array instance at `self`: its cell points at
the data head and the length box, the length box holds `n`, and the data
list from the head is a chain of `n.toNat` nodes ending in nil. -/
structure ArrayWF (nilv : Nat) (h : AHeap) (self head lenBox : Nat) (n : Int)
    (addrs : List Nat) : Prop where
  selfCell : ahFind h self = some (HObj.arrObj head lenBox)
  lenCell : ahFind h lenBox = some (HObj.intBox n)
  chain : IsChainTail h head addrs nilv
  count : addrs.length = n.toNat

/-- The claimed Array at:/at:put: behaviour at given inputs: an in-range
at:put: followed by at: on the same index returns the stored value, and
an out-of-range at: returns nil and leaves the heap unchanged. -/
def ArrayAtPutSpec (nilv : Nat) (h : AHeap) (self idxBox : Nat) (i n : Int)
    (v : Nat) : Prop :=
  (0 ≤ i → i < n →
    ∃ h2, ST_Array_set nilv h self idxBox v = some (h2, nilv) ∧
      ST_Array_at nilv h2 self idxBox = some (h2, v)) ∧
  (¬(-1 < i ∧ i < n) → ST_Array_at nilv h self idxBox = some (h, nilv))

/-- C9: for an Array of length n and 0 ≤ i < n, at:put: of v at i
followed immediately by at: of i returns v; at: with an index outside
[0, n) returns nil and does not modify the heap (so the elements are
unchanged). -/
theorem c9_array_at_after_put (nilv : Nat) (h : AHeap)
    (self head lenBox idxBox : Nat) (n i : Int) (v : Nat)
    (addrs : List Nat)
    (hwf : ArrayWF nilv h self head lenBox n addrs)
    (hidx : rawGetI h idxBox = some i) :
    ArrayAtPutSpec nilv h self idxBox i n v := by
  rcases hwf with ⟨hself, hlen, hchain, hcount⟩
  have hlenI : rawGetI h lenBox = some n := by
    unfold rawGetI
    rw [hlen]
  constructor
  · intro h0 hin
    have hlt : i.toNat < addrs.length := by
      rw [hcount]
      omega
    have hget := List.get?_eq_get hlt
    have hadv : listAdvance h head i.toNat = some (addrs.get ⟨i.toNat, hlt⟩) := by
      rw [hchain.advance i.toNat hlt, hget]
    have hmemnd : addrs.get ⟨i.toNat, hlt⟩ ∈ addrs := addrs.get_mem _ _
    rcases hchain.node_cells _ hmemnd with ⟨nxt, e, hndc⟩
    have hndself : self ≠ addrs.get ⟨i.toNat, hlt⟩ := by
      intro hx
      rw [hx, hndc] at hself
      cases hself
    have hndidx : idxBox ≠ addrs.get ⟨i.toNat, hlt⟩ := by
      intro hx
      unfold rawGetI at hidx
      rw [hx, hndc] at hidx
      cases hidx
    have hndlen : lenBox ≠ addrs.get ⟨i.toNat, hlt⟩ := by
      intro hx
      rw [hx, hndc] at hlen
      cases hlen
    have hcond : (-1 < i ∧ i < n) := ⟨by omega, hin⟩
    refine ⟨(addrs.get ⟨i.toNat, hlt⟩, HObj.listNode nxt v) :: h, ?_, ?_⟩
    · simp only [ST_Array_set, hself, hidx, hlenI, hadv, hndc]
      rw [if_pos hcond]
    · have hchain2 := hchain.write_elem v hndc
      have hadv2 : listAdvance
          ((addrs.get ⟨i.toNat, hlt⟩, HObj.listNode nxt v) :: h) head i.toNat =
          some (addrs.get ⟨i.toNat, hlt⟩) := by
        rw [hchain2.advance i.toNat hlt, hget]
      have hself2 : ahFind
          ((addrs.get ⟨i.toNat, hlt⟩, HObj.listNode nxt v) :: h) self =
          some (HObj.arrObj head lenBox) := by
        simp only [ahFind, if_neg (Ne.symm hndself)]
        exact hself
      have hidx2 : rawGetI
          ((addrs.get ⟨i.toNat, hlt⟩, HObj.listNode nxt v) :: h) idxBox =
          some i := by
        unfold rawGetI at hidx ⊢
        simp only [ahFind, if_neg (Ne.symm hndidx)]
        exact hidx
      have hlen2 : rawGetI
          ((addrs.get ⟨i.toNat, hlt⟩, HObj.listNode nxt v) :: h) lenBox =
          some n := by
        unfold rawGetI
        simp only [ahFind, if_neg (Ne.symm hndlen)]
        rw [hlen]
      have hnd2 : ahFind
          ((addrs.get ⟨i.toNat, hlt⟩, HObj.listNode nxt v) :: h)
          (addrs.get ⟨i.toNat, hlt⟩) = some (HObj.listNode nxt v) := by
        simp [ahFind]
      simp only [ST_Array_at, hself2, hidx2, hlen2, hadv2, hnd2]
      rw [if_pos hcond]
  · intro hncond
    simp only [ST_Array_at, hself, hidx, hlenI]
    rw [if_neg hncond]

/-- A length-3 Array at address 0: data head 1, nodes 1 → 2 → 3 → nil
(nil = 99), length box 4, index box 5 holding 1. -/
def arrHeapSample : AHeap :=
  [(0, HObj.arrObj 1 4), (1, HObj.listNode 2 99), (2, HObj.listNode 3 99),
   (3, HObj.listNode 99 99), (4, HObj.intBox 3), (5, HObj.intBox 1)]

theorem c9_array_at_after_put_witness :
    ArrayWF 99 arrHeapSample 0 1 4 3 [1, 2, 3] ∧
    rawGetI arrHeapSample 5 = some 1 ∧
    ArrayAtPutSpec 99 arrHeapSample 0 5 1 3 55 :=
  ⟨⟨rfl, rfl,
    IsChainTail.cons 1 2 99 99 [2, 3] rfl
      (IsChainTail.cons 2 3 99 99 [3] rfl
        (IsChainTail.cons 3 99 99 99 [] rfl (IsChainTail.nil 99))),
    rfl⟩, rfl,
   c9_array_at_after_put 99 arrHeapSample 0 1 4 5 3 1 55 [1, 2, 3]
     ⟨rfl, rfl,
      IsChainTail.cons 1 2 99 99 [2, 3] rfl
        (IsChainTail.cons 2 3 99 99 [3] rfl
          (IsChainTail.cons 3 99 99 99 [] rfl (IsChainTail.nil 99))),
      rfl⟩ rfl⟩

/-- The node-allocation loop of ST_Array_new: each iteration allocates a
ListNode at the bump address whose next pointer is the current list head
and whose element is nil, and makes the fresh node the head.  Returns
(heap, next bump address, final head). -/
def buildNodes (nilv : Nat) : AHeap → Nat → Nat → Nat → AHeap × Nat × Nat
  | h, fresh, listHead, 0 => (h, fresh, listHead)
  | h, fresh, listHead, Nat.succ k =>
    buildNodes nilv ((fresh, HObj.listNode listHead nilv) :: h) (fresh + 1)
      fresh k

theorem buildNodes_spec (nilv : Nat) :
    ∀ (k : Nat) (h : AHeap) (fresh listHead : Nat),
      ∃ addrs : List Nat,
        (buildNodes nilv h fresh listHead k).2.1 = fresh + k ∧
        IsChainTail (buildNodes nilv h fresh listHead k).1
          (buildNodes nilv h fresh listHead k).2.2 addrs listHead ∧
        addrs.length = k ∧
        (∀ a ∈ addrs, fresh ≤ a ∧ a < fresh + k) ∧
        (∀ b, b < fresh →
          ahFind (buildNodes nilv h fresh listHead k).1 b = ahFind h b) := by
  intro k
  induction k with
  | zero =>
    intro h fresh listHead
    exact ⟨[], rfl, IsChainTail.nil listHead, rfl, by simp, fun b hb => rfl⟩
  | succ k ih =>
    intro h fresh listHead
    rcases ih ((fresh, HObj.listNode listHead nilv) :: h) (fresh + 1) fresh
      with ⟨addrs, hfr, hchain, hlen, hbounds, hpres⟩
    have hfind : ahFind
        (buildNodes nilv ((fresh, HObj.listNode listHead nilv) :: h)
          (fresh + 1) fresh k).1 fresh =
        some (HObj.listNode listHead nilv) := by
      rw [hpres fresh (by omega)]
      simp [ahFind]
    refine ⟨addrs ++ [fresh], ?_, ?_, ?_, ?_, ?_⟩
    · simp only [buildNodes]
      rw [hfr]
      omega
    · simp only [buildNodes]
      exact hchain.append_node hfind
    · simp [hlen]
    · intro a ha
      rcases List.mem_append.mp ha with ha | ha
      · have := hbounds a ha
        omega
      · have hae : a = fresh := by simpa using ha
        omega
    · intro b hb
      simp only [buildNodes]
      rw [hpres b (by omega)]
      simp only [ahFind, if_neg (by omega : ¬fresh = b)]

/-- ST_Array_new: allocate the Array instance first (ST_Class_makeInstance,
both ivars nil); unbox the length argument; a non-positive length
returns nil, with the instance abandoned and no ListNode allocated.  A
positive length builds the node list, stores its head in ivars[0],
allocates a fresh Integer box set to the length (`Integer new` plus
`rawSet:`) into ivars[1], and returns the Array.  The result carries
(heap, next bump address, result object, number of ListNode
allocations). -/
def ST_Array_new (nilv : Nat) (h : AHeap) (fresh lenParam : Nat) :
    Option (AHeap × Nat × Nat × Nat) :=
  let h1 := (fresh, HObj.arrObj nilv nilv) :: h
  match rawGetI h1 lenParam with
  | none => none
  | some lengthValue =>
    if lengthValue ≤ 0 then some (h1, fresh + 1, nilv, 0)
    else
      let b := buildNodes nilv h1 (fresh + 1) nilv lengthValue.toNat
      some ((fresh, HObj.arrObj b.2.2 b.2.1) ::
        (b.2.1, HObj.intBox lengthValue) :: b.1, b.2.1 + 1, fresh,
        lengthValue.toNat)

/-- The claimed new: behaviour at given inputs: a non-positive length
returns nil with zero ListNode allocations (only the abandoned Array
instance was allocated); a strictly positive length n returns a fresh,
non-nil Array instance that is well-formed of length n, having allocated
exactly n list nodes. -/
def ArrayNewSpec (nilv : Nat) (h : AHeap) (fresh lenParam : Nat) (n : Int) :
    Prop :=
  (n ≤ 0 → ST_Array_new nilv h fresh lenParam =
    some ((fresh, HObj.arrObj nilv nilv) :: h, fresh + 1, nilv, 0)) ∧
  (0 < n → ∃ h2 fresh2 lenAddr headv addrs,
    ST_Array_new nilv h fresh lenParam = some (h2, fresh2, fresh, n.toNat) ∧
    fresh ≠ nilv ∧ ArrayWF nilv h2 fresh headv lenAddr n addrs)

/-- C10: sending new: with a length whose unboxed value is ≤ 0 returns
nil instead of an Array instance and allocates no list nodes; only for a
strictly positive length is an Array of that length constructed. -/
theorem c10_array_new_positive_only (nilv : Nat) (h : AHeap)
    (fresh lenParam : Nat) (n : Int)
    (hlen : rawGetI h lenParam = some n)
    (hfresh : ∀ a, fresh ≤ a → ahFind h a = none)
    (hnil : nilv < fresh) :
    ArrayNewSpec nilv h fresh lenParam n := by
  have hlpne : fresh ≠ lenParam := by
    intro hx
    unfold rawGetI at hlen
    rw [← hx, hfresh fresh (Nat.le_refl fresh)] at hlen
    cases hlen
  have hlen1 : rawGetI ((fresh, HObj.arrObj nilv nilv) :: h) lenParam =
      some n := by
    unfold rawGetI at hlen ⊢
    simp only [ahFind, if_neg hlpne]
    exact hlen
  constructor
  · intro hle
    simp only [ST_Array_new, hlen1]
    rw [if_pos hle]
  · intro hpos
    rcases buildNodes_spec nilv n.toNat ((fresh, HObj.arrObj nilv nilv) :: h)
      (fresh + 1) nilv with ⟨addrs, hfr, hchain, hlena, hbounds, hpres⟩
    have hfreshout : fresh ∉ addrs := by
      intro hx
      have := hbounds fresh hx
      omega
    have hlenaddrout :
        (buildNodes nilv ((fresh, HObj.arrObj nilv nilv) :: h) (fresh + 1)
          nilv n.toNat).2.1 ∉ addrs := by
      intro hx
      have hq := hbounds _ hx
      omega
    have heq : ST_Array_new nilv h fresh lenParam =
        some ((fresh, HObj.arrObj
            (buildNodes nilv ((fresh, HObj.arrObj nilv nilv) :: h) (fresh + 1)
              nilv n.toNat).2.2
            (buildNodes nilv ((fresh, HObj.arrObj nilv nilv) :: h) (fresh + 1)
              nilv n.toNat).2.1) ::
          ((buildNodes nilv ((fresh, HObj.arrObj nilv nilv) :: h) (fresh + 1)
              nilv n.toNat).2.1, HObj.intBox n) ::
          (buildNodes nilv ((fresh, HObj.arrObj nilv nilv) :: h) (fresh + 1)
            nilv n.toNat).1,
          (buildNodes nilv ((fresh, HObj.arrObj nilv nilv) :: h) (fresh + 1)
            nilv n.toNat).2.1 + 1, fresh, n.toNat) := by
      simp only [ST_Array_new, hlen1]
      rw [if_neg (by omega : ¬n ≤ 0)]
    have hneq : fresh ≠ (buildNodes nilv ((fresh, HObj.arrObj nilv nilv) :: h)
        (fresh + 1) nilv n.toNat).2.1 := by
      rw [hfr]
      omega
    refine ⟨_, _,
      (buildNodes nilv ((fresh, HObj.arrObj nilv nilv) :: h) (fresh + 1)
        nilv n.toNat).2.1,
      (buildNodes nilv ((fresh, HObj.arrObj nilv nilv) :: h) (fresh + 1)
        nilv n.toNat).2.2,
      addrs, heq, by omega, ?_, ?_, ?_, hlena⟩
    · simp [ahFind]
    · simp only [ahFind, if_neg hneq]
      simp
    · exact ((hchain.cons_out _ hlenaddrout).cons_out _ hfreshout)

/-- A heap holding one boxed Integer 0 (the length argument) at address
5, used to instantiate the C10 theorem at the boundary length 0. -/
def arrNewHeapSample : AHeap := [(5, HObj.intBox 0)]

theorem c10_array_new_positive_only_witness :
    rawGetI arrNewHeapSample 5 = some 0 ∧
    (∀ a, 6 ≤ a → ahFind arrNewHeapSample a = none) ∧
    ArrayNewSpec 0 arrNewHeapSample 6 5 0 :=
  ⟨rfl,
   fun a ha => by
     simp only [arrNewHeapSample, ahFind, if_neg (by omega : ¬5 = a)],
   c10_array_new_positive_only 0 arrNewHeapSample 6 5 0 rfl
     (fun a ha => by
       simp only [arrNewHeapSample, ahFind, if_neg (by omega : ¬5 = a)])
     (by omega)⟩

/-!
The garbage collector: ST_GC_run = ST_GC_mark then ST_GC_sweep of
src/src/smalltalk.c.  Mark walks the operand stack and traverses the
global-scope tree; sweep scans every pool slot (class pool, integer pool,
shared instance pools), freeing ALIVE slots that are neither MARKED nor
PRESERVE.  Two source defects surface here: ST_GC_visitGVar marks the
global entry's *symbol* (the key) and never its *value*, and
ST_refStack(offset) returns *(top - offset) although `top` points one
past the last element, so offset 0 reads one slot past the top and the
bottom slot is never visited.
-/

/-- A heap record (`struct ST_Internal_Object` / `struct ST_Class`): the
class pointer, the GC mask byte, the inline instance-variable slots (for
instances), and the superclass pointer (for classes; `none` at the
root).  An object is a class exactly when its class pointer is its own
address (ST_isClass). -/
structure GObj where
  cls : Nat
  gcMask : Nat
  ivars : List Nat
  super : Option Nat
deriving DecidableEq, Repr

abbrev GHeap := List (Nat × GObj)

def ghFind : GHeap → Nat → Option GObj
  | [], _ => none
  | (a, o) :: rest, b => if a = b then some o else ghFind rest b

def ST_GC_MASK_ALIVE : Nat := 1
def ST_GC_MASK_MARKED : Nat := 2
def ST_GC_MASK_PRESERVE : Nat := 4

/-- ST_Object_setGCMask: or the bit into the object's mask byte. -/
def ghSetMask (h : GHeap) (a : Nat) (mask : Nat) : GHeap :=
  h.map (fun p =>
    if p.1 = a then (p.1, { p.2 with gcMask := p.2.gcMask ||| mask }) else p)

/-- The `for (i = 0; i < instanceVariableCount; ++i)` loop of
ST_GC_markObject, abstracted over the recursive mark step `f`. -/
def markIVarsWith (f : GHeap → Nat → Option GHeap) :
    GHeap → List Nat → Option GHeap
  | h, [] => some h
  | h, a :: rest =>
    match f h a with
    | some h2 => markIVarsWith f h2 rest
    | none => none

/-- ST_GC_markObject: set MARKED; for a non-class, mark every
instance-variable slot and then the class; for a class, mark the super
when present.  The C function is recursive with no already-marked check,
so a cyclic object graph diverges — hence the fuel; a dangling pointer is
undefined behaviour (`none`). -/
def ST_GC_markObject : Nat → GHeap → Nat → Option GHeap
  | 0, _, _ => none
  | Nat.succ fuel, h, a =>
    match ghFind h a with
    | none => none
    | some o =>
      if a ≠ o.cls then
        match markIVarsWith (fun h1 b => ST_GC_markObject fuel h1 b)
            (ghSetMask h a ST_GC_MASK_MARKED) o.ivars with
        | some h2 => ST_GC_markObject fuel h2 o.cls
        | none => none
      else
        match o.super with
        | some s => ST_GC_markObject fuel (ghSetMask h a ST_GC_MASK_MARKED) s
        | none => some (ghSetMask h a ST_GC_MASK_MARKED)

/-- The stack loop of ST_GC_mark:
`for (i = 0; i < opStackSize; ++i) markObject(refStack(i))`.  Slots are
index 0 = bottom; ST_refStack(offset) reads *(top - offset) with `top`
one past the last element, i.e. slot (size - offset): offset 0 reads the
uninitialized slot one past the top (undefined behaviour, `none`, unless
the stack is empty, when the loop body never runs) and the bottom slot
is never visited. -/
def ST_GC_markStack (fuel : Nat) (slots : List Nat) (h : GHeap) :
    Option GHeap :=
  (List.range slots.length).foldlM
    (fun hcur i =>
      match slots.get? (slots.length - i) with
      | some a => ST_GC_markObject fuel hcur a
      | none => none)
    h

/-- The globals pass of ST_GC_mark: ST_BST_traverse over the global
scope with ST_GC_visitGVar, which marks
`((ST_SymbolMap_Entry *)gvar)->symbol` — the entry's key.  The entry's
value (`((ST_GlobalVarMap_Entry *)gvar)->value`, the object the global
is bound to) is never marked. -/
def ST_GC_visitGVars (fuel : Nat) (g : List (Nat × Nat)) (h : GHeap) :
    Option GHeap :=
  g.foldlM (fun hcur p => ST_GC_markObject fuel hcur p.1) h

/-- ST_GC_sweep via ST_Pool_scan: a slot with ALIVE set and neither
MARKED nor PRESERVE is freed (mask zeroed and returned to the freelist —
removed from the heap here; for a class the method tree is freed first);
a slot with ALIVE and MARKED or PRESERVE survives with MARKED cleared
(`&&& 253` clears bit 1 of the mask byte); slots without ALIVE are left
untouched. -/
def ST_GC_sweep (h : GHeap) : GHeap :=
  h.foldr
    (fun p acc =>
      if p.2.gcMask &&& ST_GC_MASK_ALIVE ≠ 0 then
        if p.2.gcMask &&& (ST_GC_MASK_MARKED ||| ST_GC_MASK_PRESERVE) ≠ 0 then
          (p.1, { p.2 with gcMask := p.2.gcMask &&& 253 }) :: acc
        else acc
      else p :: acc)
    []

/-- The GC-relevant context state: heap, operand-stack slots (bottom
first), global scope, pause flag. -/
structure GCCtx where
  heap : GHeap
  stackSlots : List Nat
  globalScope : BST Nat Nat
  gcPaused : Bool
deriving DecidableEq, Repr

/-- ST_GC_run: a no-op while paused; otherwise mark (stack, then
globals) and sweep. -/
def ST_GC_run (fuel : Nat) (ctx : GCCtx) : Option GCCtx :=
  if ctx.gcPaused then some ctx
  else
    match ST_GC_markStack fuel ctx.stackSlots ctx.heap with
    | some h1 =>
      match ST_GC_visitGVars fuel (BST.entries ctx.globalScope) h1 with
      | some h2 => some { ctx with heap := ST_GC_sweep h2 }
      | none => none
    | none => none

/-- A context as produced by createContext plus one user action: address
0 is the Object class (bootstrap leaves its mask 0), address 1 the
Symbol class (ALIVE from ST_Class_subclass), address 2 an interned
symbol (ALIVE and PRESERVE), and address 3 a user class created by
`Object subclass` (ALIVE, not PRESERVE) whose only reference is the
global binding symbol 2 ↦ class 3; the operand stack is empty and the
collector is not paused. -/
def gcHeapSample : GHeap :=
  [(0, { cls := 0, gcMask := 0, ivars := [], super := none }),
   (1, { cls := 1, gcMask := 1, ivars := [], super := some 0 }),
   (2, { cls := 1, gcMask := 5, ivars := [], super := none }),
   (3, { cls := 3, gcMask := 1, ivars := [], super := some 0 })]

def gcCtxSample : GCCtx :=
  { heap := gcHeapSample
    stackSlots := []
    globalScope := BST.node BST.leaf 2 3 BST.leaf
    gcPaused := false }

/-- C1: the claim says every object reachable from the roots — which
include every global binding's value — survives GC_run unchanged.  On
the code: class 3 is the value of the only global, yet one GC_run frees
it (its pool slot is reclaimed), because ST_GC_visitGVar marks only the
entry's key symbol; the key symbol's class chain (addresses 1 and 0)
does survive. -/
theorem c1_gc_frees_global_value :
    ST_getGlobal 99 gcCtxSample.globalScope 2 = 3 ∧
    ghFind gcCtxSample.heap 3 =
      some { cls := 3, gcMask := 1, ivars := [], super := some 0 } ∧
    (ST_GC_run 10 gcCtxSample).map (fun c => ghFind c.heap 3) = some none ∧
    (ST_GC_run 10 gcCtxSample).map (fun c => ghFind c.heap 1) =
      some (some { cls := 1, gcMask := 1, ivars := [], super := some 0 }) := by
  exact ⟨rfl, rfl, rfl, rfl⟩
